import Mathlib

/-!
Verification development for the admission-system allocation engine
(`src/admission_system/addmission.py`).

The Python module is embedded shallowly:

* `Student` mirrors the `Student` dataclass (immutable attributes plus the
  three mutable assignment fields).
* The seat table `seats : String → String → Int` models the Python nested
  dict `Dict[str, Dict[str, int]]` as a total map; an absent entry reads
  as `0`, matching the code's `self.seats.get(b, {}).get(t, 0)` accesses.
* Students are identified by their position in the `students` list (Python
  mutates list elements in place; we rebuild the list with `List.set`).
* The `while` loop of `upgrade_and_fill` is modelled as a fuel-indexed
  structural recursion `upgradeGo`; `upgrade_and_fill` supplies a fuel
  bound that provably suffices for the loop to reach its natural exit
  (the termination theorem for claim C5), so the fueled function agrees
  with the unbounded loop.
* Where the Python code would raise (e.g. incrementing a seat count for a
  candidate whose `assigned_seat_type` is `None` while `assigned_branch`
  is set), the model leaves the state unchanged; such states never arise
  through the public API (see the consistency invariant).
-/

/-- The generic open seat type, `OPEN` in the source. -/
def OPEN : String := "OPEN"

/-- The reserved seat categories, `RESERVED_CATS` in the source. -/
def RESERVED_CATS : List String := ["OBC", "SC", "ST", "EWS"]

/-- The `Student` dataclass: identity, rank, category, ranked branch
codes, tie-break attributes, and the three mutable assignment fields. -/
structure Student where
  sid : String
  rank : Int
  category : String
  preferences : List String
  total_marks : Int := 0
  subject_marks : Int := 0
  dob : String := "2000-01-01"
  assigned_branch : Option String := none
  assigned_seat_type : Option String := none
  assigned_pref_index : Option Nat := none
deriving DecidableEq, Repr

instance : Inhabited Student :=
  ⟨{ sid := "", rank := 0, category := "", preferences := [] }⟩

/-- The Python sort key tuple `(rank, -total_marks, -subject_marks, dob, sid)`. -/
abbrev Key := Int × Int × Int × String × String

/-- A copy of the key in the lexicographic order synonym, so that the
strict and weak orders on keys are exactly Python's tuple comparison. -/
def keyLex (k : Key) : Int ×ₗ (Int ×ₗ (Int ×ₗ (String ×ₗ String))) :=
  toLex (k.1, toLex (k.2.1, toLex (k.2.2.1, toLex (k.2.2.2.1, k.2.2.2.2))))

/-- Strict lexicographic comparison of sort keys (Python `tuple.__lt__`). -/
def keyLt (a b : Key) : Prop := keyLex a < keyLex b

/-- Weak lexicographic comparison of sort keys. -/
def keyLe (a b : Key) : Prop := keyLex a ≤ keyLex b

instance (a b : Key) : Decidable (keyLt a b) := by unfold keyLt; infer_instance

instance (a b : Key) : Decidable (keyLe a b) := by unfold keyLe; infer_instance

/-- `Student.key`: the sorting/tie-breaking key; lower is higher priority. -/
def Student.key (s : Student) : Key :=
  (s.rank, -s.total_marks, -s.subject_marks, s.dob, s.sid)

/-- `Student.pref_index`: index of a branch in the preference list, or
`10 ^ 9` when the branch is absent (the `except ValueError` path). -/
def Student.pref_index (s : Student) (branch : String) : Nat :=
  if branch ∈ s.preferences then s.preferences.indexOf branch else 10 ^ 9

/-- `Student.prefers`: the branch occurs in the preferences and is either
wanted unconditionally (no current assignment) or strictly above the
currently assigned preference index.  The code reads
`self.assigned_pref_index` directly after the `assigned_branch is None`
test; the `getD` totalizes the state in which the branch is set but the
index is missing (where Python would raise a `TypeError`). -/
def Student.prefers (s : Student) (branch : String) : Prop :=
  branch ∈ s.preferences ∧
    (s.assigned_branch = none ∨ s.pref_index branch < s.assigned_pref_index.getD (10 ^ 9))

instance (s : Student) (b : String) : Decidable (s.prefers b) := by
  unfold Student.prefers; infer_instance

/-- The `AdmissionSystem` dataclass: the seat table and the student list. -/
structure AdmissionSystem where
  seats : String → String → Int
  students : List Student

/-- Read a remaining-seat count (`self.seats.get(b, {}).get(t, 0)`). -/
def getSeat (f : String → String → Int) (b t : String) : Int := f b t

/-- Write a remaining-seat count (`self.seats[b][t] = v`). -/
def setSeat (f : String → String → Int) (b t : String) (v : Int) :
    String → String → Int :=
  fun b' t' => if b' = b ∧ t' = t then v else f b' t'

/-- `AdmissionSystem._eligible_for`: an open seat accepts anyone, a
reserved seat only its own category. -/
def eligible_for (s : Student) (seat_type : String) : Prop :=
  seat_type = OPEN ∨ s.category = seat_type

instance (s : Student) (t : String) : Decidable (eligible_for s t) := by
  unfold eligible_for; infer_instance

/-- The record update performed by `AdmissionSystem._allocate` on the
chosen student: record branch, seat type and preference index. -/
def grantSeat (s : Student) (b t : String) : Student :=
  { s with assigned_branch := some b, assigned_seat_type := some t,
           assigned_pref_index := some (s.pref_index b) }

/-- `AdmissionSystem._allocate` applied to the student at position `i`:
decrement the seat count and record branch, seat type and preference
index on the student. -/
def allocateAt (sys : AdmissionSystem) (i : Nat) (b t : String) : AdmissionSystem :=
  match sys.students[i]? with
  | none => sys
  | some s =>
    { seats := setSeat sys.seats b t (getSeat sys.seats b t - 1),
      students := sys.students.set i (grantSeat s b t) }

/-- The preference scan of `initial_allocation`: try the open seat at each
branch first, then (for reserved-category students) the student's own
reserved seat, stopping at the first hit. -/
def scanPrefs (seats : String → String → Int) (s : Student) :
    List String → Option (String × String)
  | [] => none
  | b :: rest =>
    if getSeat seats b OPEN > 0 then some (b, OPEN)
    else if s.category ∈ RESERVED_CATS ∧ getSeat seats b s.category > 0 then
      some (b, s.category)
    else scanPrefs seats s rest

/-- One iteration of the `initial_allocation` loop body for the student at
position `i`. -/
def processAt (sys : AdmissionSystem) (i : Nat) : AdmissionSystem :=
  match sys.students[i]? with
  | none => sys
  | some s =>
    match scanPrefs sys.seats s s.preferences with
    | none => sys
    | some (b, t) => allocateAt sys i b t

/-- Key comparison used for sorting (`sort(key=lambda x: x.key())`).
Python's `sort` is a stable sort by the ascending key order; we realize
it with `List.insertionSort`, which is likewise a stable sort by the
same total preorder and which the kernel can evaluate. -/
def studentRel (a b : Student) : Prop := keyLe a.key b.key

instance (a b : Student) : Decidable (studentRel a b) := by
  unfold studentRel; infer_instance

instance : IsTotal Student studentRel :=
  ⟨fun a b => le_total (keyLex a.key) (keyLex b.key)⟩

instance : IsTrans Student studentRel :=
  ⟨fun _ _ _ hab hbc => le_trans hab hbc⟩

/-- Fold of `processAt` over positions `i, i+1, …` (`n` students remaining). -/
def initGo : Nat → Nat → AdmissionSystem → AdmissionSystem
  | 0, _, sys => sys
  | n + 1, i, sys => initGo n (i + 1) (processAt sys i)

/-- `AdmissionSystem.initial_allocation`: sort the students by key
(ascending, stable) and process them in that order. -/
def initial_allocation (sys : AdmissionSystem) : AdmissionSystem :=
  let sorted : AdmissionSystem :=
    { sys with students := sys.students.insertionSort studentRel }
  initGo sorted.students.length 0 sorted

/-- The filter of `_best_candidate_for`: the branch occurs in the
student's preferences, the student is eligible for the seat type, and
the student prefers the branch to their current assignment. -/
def wantsSeat (s : Student) (branch seat_type : String) : Prop :=
  branch ∈ s.preferences ∧ eligible_for s seat_type ∧ s.prefers branch

instance (s : Student) (b t : String) : Decidable (wantsSeat s b t) := by
  unfold wantsSeat; infer_instance

/-- Accumulator loop of `_best_candidate_for`: scan the students in list
order keeping the position and key of the best (strictly smallest key)
eligible wanting candidate seen so far. -/
def bestAux (branch seat_type : String) :
    List Student → Nat → Option (Nat × Key) → Option (Nat × Key)
  | [], _, acc => acc
  | s :: rest, i, acc =>
    if wantsSeat s branch seat_type then
      match acc with
      | none => bestAux branch seat_type rest (i + 1) (some (i, s.key))
      | some (j, k) =>
        if keyLt s.key k then bestAux branch seat_type rest (i + 1) (some (i, s.key))
        else bestAux branch seat_type rest (i + 1) (some (j, k))
    else bestAux branch seat_type rest (i + 1) acc

/-- `AdmissionSystem._best_candidate_for`, returning the position of the
chosen student (Python returns the list element itself and mutates it in
place). -/
def best_candidate_for (sys : AdmissionSystem) (branch seat_type : String) :
    Option Nat :=
  (bestAux branch seat_type sys.students 0 none).map Prod.fst

/-- The vacancy pushed by `upgrade_and_fill` when the moved candidate
previously held a seat (the `if prev_b is not None` branch). -/
def prevVacancy (sys : AdmissionSystem) (i : Nat) : List (String × String) :=
  match sys.students[i]? with
  | none => []
  | some s =>
    match s.assigned_branch, s.assigned_seat_type with
    | some pb, some pt => [(pb, pt)]
    | _, _ => []

/-- The move step of `upgrade_and_fill`: allocate the new seat to the
student at position `i` and free the previously held seat, if any. -/
def moveStudent (sys : AdmissionSystem) (i : Nat) (b t : String) : AdmissionSystem :=
  match sys.students[i]? with
  | none => sys
  | some s =>
    let sys1 := allocateAt sys i b t
    match s.assigned_branch, s.assigned_seat_type with
    | some pb, some pt =>
      { sys1 with seats := setSeat sys1.seats pb pt (getSeat sys1.seats pb pt + 1) }
    | _, _ => sys1

/-- Termination measure of one student: the assigned preference index, or
one more than the preference-list length when unassigned (every move
strictly decreases it). -/
def measureOf (s : Student) : Nat :=
  match s.assigned_branch, s.assigned_pref_index with
  | some _, some k => k
  | _, _ => s.preferences.length + 1

/-- Total termination measure: the sum of the students' measures. -/
def totalMeasure (sys : AdmissionSystem) : Nat :=
  (sys.students.map measureOf).sum

/-- Fuel-indexed body of `upgrade_and_fill`: pop a vacancy; while it has
remaining capacity and a best candidate exists, move that candidate in,
re-queue the vacancy just processed at the front and the freed seat at
the back (Python processes the inner `while` on the popped pair before
moving on, and appends freed pairs to the FIFO queue). -/
def upgradeGo : Nat → AdmissionSystem → List (String × String) → AdmissionSystem
  | 0, sys, _ => sys
  | _ + 1, sys, [] => sys
  | fuel + 1, sys, (b, t) :: rest =>
    if getSeat sys.seats b t > 0 then
      match best_candidate_for sys b t with
      | none => upgradeGo fuel sys rest
      | some i =>
        upgradeGo fuel (moveStudent sys i b t) ((b, t) :: (rest ++ prevVacancy sys i))
    else upgradeGo fuel sys rest

/-- Fuel that provably suffices for `upgradeGo` to reach its natural exit
(see the termination theorem): every iteration either completes a move,
strictly decreasing `totalMeasure`, or discards a queue entry. -/
def upgradeFuel (sys : AdmissionSystem) (q : List (String × String)) : Nat :=
  2 * totalMeasure sys + q.length

/-- `AdmissionSystem.upgrade_and_fill`, seeded with the single pair
`(branch, seat_type)`. -/
def upgrade_and_fill (sys : AdmissionSystem) (branch seat_type : String) :
    AdmissionSystem :=
  upgradeGo (upgradeFuel sys [(branch, seat_type)]) sys [(branch, seat_type)]

/-- The record update performed by `withdraw` on the leaving student:
clear all three assignment fields. -/
def clearAssignment (s : Student) : Student :=
  { s with assigned_branch := none, assigned_seat_type := none,
           assigned_pref_index := none }

/-- `AdmissionSystem.withdraw`: locate the first student with the given
id; if unknown or unassigned, do nothing; otherwise free the held seat,
clear the assignment state and run the upgrade cascade on the freed pair. -/
def withdraw (sys : AdmissionSystem) (sid : String) : AdmissionSystem :=
  match sys.students.findIdx? (fun s => s.sid == sid) with
  | none => sys
  | some i =>
    let s := sys.students.getD i default
    match s.assigned_branch, s.assigned_seat_type with
    | some b, some t =>
      upgrade_and_fill
        { seats := setSeat sys.seats b t (getSeat sys.seats b t + 1),
          students := sys.students.set i (clearAssignment s) } b t
    | _, _ => sys

/-- `AdmissionSystem.add_capacity`: add the delta to the stored capacity
(creating an absent entry at `0` first, which the total seat map renders
trivial) and run the upgrade cascade on that pair.  The code performs no
validation of `delta`. -/
def add_capacity (sys : AdmissionSystem) (branch seat_type : String) (delta : Int) :
    AdmissionSystem :=
  let v : Int := getSeat sys.seats branch seat_type + delta
  upgrade_and_fill { sys with seats := setSeat sys.seats branch seat_type v }
    branch seat_type

/-- `AdmissionSystem.snapshot`: the `(sid, branch, seat_type)` triples of
all students, sorted by the priority key (non-destructively). -/
def snapshot (sys : AdmissionSystem) : List (String × Option String × Option String) :=
  (sys.students.insertionSort studentRel).map
    (fun s => (s.sid, s.assigned_branch, s.assigned_seat_type))

/-- The reference seat table from the module's demo configuration. -/
def demoSeats : String → String → Int := fun b t =>
  if b = "CSE" then
    (if t = OPEN then 2 else if t = "OBC" then 1 else if t = "SC" then 1 else 0)
  else if b = "ECE" then
    (if t = OPEN then 2 else if t = "OBC" then 1 else if t = "SC" then 1 else 0)
  else if b = "ME" then
    (if t = OPEN then 1 else if t = "OBC" then 1 else 0)
  else 0

/-- The eight reference candidates from the module's demo configuration. -/
def demoStudents : List Student :=
  [ { sid := "S1", rank := 1, category := "GEN", preferences := ["CSE", "ECE", "ME"],
      total_marks := 480, subject_marks := 95, dob := "2004-02-01" },
    { sid := "S2", rank := 2, category := "OBC", preferences := ["CSE", "ECE", "ME"],
      total_marks := 475, subject_marks := 94, dob := "2004-05-10" },
    { sid := "S3", rank := 3, category := "SC", preferences := ["CSE", "ME"],
      total_marks := 470, subject_marks := 90, dob := "2004-03-20" },
    { sid := "S4", rank := 4, category := "GEN", preferences := ["CSE", "ECE"],
      total_marks := 468, subject_marks := 91, dob := "2004-01-05" },
    { sid := "S5", rank := 5, category := "OBC", preferences := ["ECE", "CSE", "ME"],
      total_marks := 465, subject_marks := 89, dob := "2004-07-11" },
    { sid := "S6", rank := 6, category := "GEN", preferences := ["ME", "CSE"],
      total_marks := 460, subject_marks := 88, dob := "2004-09-30" },
    { sid := "S7", rank := 7, category := "SC", preferences := ["CSE", "ECE"],
      total_marks := 455, subject_marks := 85, dob := "2004-04-01" },
    { sid := "S8", rank := 8, category := "GEN", preferences := ["ECE"],
      total_marks := 450, subject_marks := 84, dob := "2004-12-12" } ]

/-- The reference system (demo configuration of the module). -/
def demoSys : AdmissionSystem := { seats := demoSeats, students := demoStudents }

/-- A system with an empty seat table and no candidates. -/
def emptySys : AdmissionSystem := { seats := fun _ _ => 0, students := [] }

/-- C1: the claim says that after `Withdraw("S1")` on the reference
configuration S1 is permanently removed from the pool of active seekers
and the freed CSE/open seat is re-filled by the next eligible wanting
candidate, not by S1.  In the code, `upgrade_and_fill` immediately
re-selects the just-withdrawn candidate (S1 is unassigned, wants CSE,
and has the lowest key), so S1 is re-seated into CSE/open and the whole
withdrawal is observably a no-op. -/
theorem withdraw_reference_reseats_S1 :
    ((withdraw (initial_allocation demoSys) "S1").students.find?
        (fun s => s.sid == "S1")).map
        (fun s => (s.assigned_branch, s.assigned_seat_type)) =
      some (some "CSE", some OPEN) ∧
    snapshot (withdraw (initial_allocation demoSys) "S1") =
      snapshot (initial_allocation demoSys) := by
  decide

/-- C2 counterexample: `add_capacity` performs no validation of `delta`.
Called with `delta = -1` on a pair whose stored capacity is `0`, it
changes the state and drives the remaining count to `-1`, refuting
"rejected before any state change" and "every remaining-capacity count
stays ≥ 0". -/
theorem add_capacity_accepts_negative_delta :
    (add_capacity emptySys "CSE" OPEN (-1)).seats "CSE" OPEN = -1 ∧
    emptySys.seats "CSE" OPEN = 0 := by
  exact ⟨rfl, rfl⟩

/-- C2 amended: `add_capacity` applies any integer delta unconditionally
to the stored capacity of the pair (here isolated on systems with no
candidates, where the subsequent cascade does not touch the seat table);
in particular a non-positive delta is accepted and decreases the stored
capacity. -/
theorem add_capacity_applies_any_delta (sys : AdmissionSystem) (b t : String)
    (delta : Int) (h : sys.students = []) :
    (add_capacity sys b t delta).seats b t = sys.seats b t + delta := by
  have hm : totalMeasure { sys with
      seats := setSeat sys.seats b t (getSeat sys.seats b t + delta) } = 0 := by
    simp [totalMeasure, h]
  have hb : ∀ seats', best_candidate_for { seats := seats', students := sys.students } b t
      = none := by
    intro seats'
    simp [best_candidate_for, h, bestAux]
  simp only [add_capacity, upgrade_and_fill, upgradeFuel, hm]
  simp only [upgradeGo]
  split
  · rw [hb]
    simp [upgradeGo, setSeat, getSeat]
  · simp [setSeat, getSeat]

/-- C2 amended, witness instance. -/
theorem add_capacity_applies_any_delta_witness :
    (add_capacity emptySys "B" OPEN (-2)).seats "B" OPEN =
      emptySys.seats "B" OPEN + (-2) :=
  add_capacity_applies_any_delta emptySys "B" OPEN (-2) rfl

/-- Following the specification's wording for one candidate's scan in
initial allocation: take the first branch of the preference list at
which either an open seat remains or (for a reserved-category candidate)
a reserved seat of the candidate's own category remains; the seat taken
is the open one whenever it is available, the own-category reserved one
otherwise.  This is the claim-side description to be compared with the
code's `scanPrefs`. -/
def specScanChoice (seats : String → String → Int) (s : Student) :
    Option (String × String) :=
  match s.preferences.find? (fun b =>
      decide (getSeat seats b OPEN > 0 ∨
        (s.category ∈ RESERVED_CATS ∧ getSeat seats b s.category > 0))) with
  | none => none
  | some b => some (b, if getSeat seats b OPEN > 0 then OPEN else s.category)

/-- The code's preference scan computes exactly the first branch
satisfying the specification's disjunction, with open seats preferred. -/
theorem scanPrefs_eq_find (seats : String → String → Int) (s : Student) :
    ∀ l : List String,
      scanPrefs seats s l =
        (match l.find? (fun b =>
            decide (getSeat seats b OPEN > 0 ∨
              (s.category ∈ RESERVED_CATS ∧ getSeat seats b s.category > 0))) with
         | none => none
         | some b => some (b, if getSeat seats b OPEN > 0 then OPEN else s.category))
  | [] => rfl
  | b :: rest => by
    by_cases h1 : getSeat seats b OPEN > 0
    · simp [scanPrefs, List.find?, h1]
    · by_cases h2 : s.category ∈ RESERVED_CATS ∧ getSeat seats b s.category > 0
      · simp [scanPrefs, List.find?, h1, h2]
      · simp only [scanPrefs, if_neg h1, if_neg h2]
        rw [scanPrefs_eq_find seats s rest]
        have hp : (fun b =>
            decide (getSeat seats b OPEN > 0 ∨
              (s.category ∈ RESERVED_CATS ∧ getSeat seats b s.category > 0))) b = false := by
          simp [h1, h2]
        simp [List.find?, hp]

/-- C4: initial allocation sorts the candidates by ascending Priority
key and, processing them in that order, gives each candidate the first
branch of their preference list with an open seat, or failing that a
reserved seat of the candidate's own category, open seats always taken
first; a candidate whose scan finds nothing is left untouched
(unassigned). -/
theorem initial_allocation_sorted_greedy (sys : AdmissionSystem) :
    ((sys.students.insertionSort studentRel).Perm sys.students ∧
      List.Pairwise studentRel (sys.students.insertionSort studentRel)) ∧
    (∀ (sys' : AdmissionSystem) (i : Nat) (s : Student), sys'.students[i]? = some s →
      processAt sys' i =
        (match specScanChoice sys'.seats s with
         | none => sys'
         | some (b, t) => allocateAt sys' i b t)) ∧
    initial_allocation sys =
      initGo sys.students.length 0
        { sys with students := sys.students.insertionSort studentRel } := by
  refine ⟨⟨List.perm_insertionSort studentRel sys.students,
      List.sorted_insertionSort studentRel sys.students⟩, ?_, ?_⟩
  · intro sys' i s hs
    simp only [processAt, hs, specScanChoice, scanPrefs_eq_find]
  · simp only [initial_allocation]
    have hl : (sys.students.insertionSort studentRel).length = sys.students.length :=
      (List.perm_insertionSort studentRel sys.students).length_eq
    rw [hl]

/-- C4 witness: the per-candidate step of the reference configuration at
position 0 follows the specification's first-choice description. -/
theorem initial_allocation_sorted_greedy_witness :
    processAt demoSys 0 =
      (match specScanChoice demoSys.seats (demoStudents.getD 0 default) with
       | none => demoSys
       | some (b, t) => allocateAt demoSys 0 b t) :=
  (initial_allocation_sorted_greedy demoSys).2.1 demoSys 0
    (demoStudents.getD 0 default) (by decide)

/-- C9: two runs of initial allocation plus snapshot on identical input
give identical output; the snapshot is the projection of a permutation
of the candidate list that is sorted by the Priority key (so exactly one
triple per candidate, ordered by the key); and in this embedding
`snapshot` is a pure projection, returning the triples without touching
the seat table or any candidate. -/
theorem snapshot_deterministic_and_ordered (sys : AdmissionSystem) :
    (∀ sys' : AdmissionSystem, sys' = sys →
        snapshot (initial_allocation sys') = snapshot (initial_allocation sys)) ∧
    (∃ l : List Student, l.Perm sys.students ∧ List.Pairwise studentRel l ∧
        snapshot sys = l.map (fun s => (s.sid, s.assigned_branch, s.assigned_seat_type))) ∧
    (snapshot sys).length = sys.students.length := by
  refine ⟨fun sys' h => by rw [h], ⟨sys.students.insertionSort studentRel,
      List.perm_insertionSort studentRel sys.students,
      List.sorted_insertionSort studentRel sys.students, rfl⟩, ?_⟩
  simp [snapshot, (List.perm_insertionSort studentRel sys.students).length_eq]

/-- C9 witness: determinism and the one-triple-per-candidate count on
the reference configuration. -/
theorem snapshot_deterministic_and_ordered_witness :
    snapshot (initial_allocation demoSys) = snapshot (initial_allocation demoSys) ∧
    (snapshot demoSys).length = demoSys.students.length :=
  ⟨(snapshot_deterministic_and_ordered demoSys).1 demoSys rfl,
   (snapshot_deterministic_and_ordered demoSys).2.2⟩

/-- Setting a list position to the value it already holds is a no-op. -/
theorem list_set_self {α : Type} : ∀ (l : List α) (i : Nat) (h : i < l.length),
    l.set i (l.get ⟨i, h⟩) = l
  | _ :: _, 0, _ => rfl
  | a :: l, i + 1, h => by
    simp only [List.set, List.get]
    rw [list_set_self l i (Nat.lt_of_succ_lt_succ h)]

/-- Specification of a successful `findIdx?` search: the found index is
in range, its element satisfies the predicate, and no earlier element
does. -/
theorem findIdx?_some_spec {α : Type} (p : α → Bool) :
    ∀ (l : List α) (i : Nat), l.findIdx? p = some i →
      ∃ h : i < l.length, p (l.get ⟨i, h⟩) = true ∧
        ∀ m (hm : m < l.length), m < i → p (l.get ⟨m, hm⟩) = false := by
  intro l
  induction l with
  | nil => intro i h; simp [List.findIdx?] at h
  | cons x xs ih =>
    intro i h
    rw [List.findIdx?_cons] at h
    by_cases hx : p x
    · rw [if_pos hx] at h
      cases h
      exact ⟨by simp, by simpa using hx, fun m hm hm0 => absurd hm0 (Nat.not_lt_zero m)⟩
    · rw [if_neg hx, List.findIdx?_succ] at h
      match hi : xs.findIdx? p with
      | none => rw [hi] at h; cases h
      | some j =>
        rw [hi] at h
        simp only [Option.map] at h
        cases h
        obtain ⟨hj, hpj, hbefore⟩ := ih j hi
        refine ⟨by simpa using Nat.succ_lt_succ hj, by simpa using hpj, ?_⟩
        intro m hm hmlt
        match m with
        | 0 => simpa using hx
        | m + 1 =>
          have hm' : m < xs.length := by simpa using hm
          have := hbefore m hm' (Nat.lt_of_succ_lt_succ hmlt)
          simpa using this

/-- A branch is dead for a student when neither its open seat nor (for a
reserved-category student) the student's own reserved seat remains. -/
def deadFor (seats : String → String → Int) (s : Student) (c : String) : Prop :=
  getSeat seats c OPEN ≤ 0 ∧
    (s.category ∈ RESERVED_CATS → getSeat seats c s.category ≤ 0)

/-- A failed preference scan leaves every scanned branch dead. -/
theorem scanPrefs_none_spec (seats : String → String → Int) (s : Student) :
    ∀ l, scanPrefs seats s l = none → ∀ c ∈ l, deadFor seats s c := by
  intro l
  induction l with
  | nil => intro _ c hc; cases hc
  | cons b rest ih =>
    intro h c hc
    by_cases h1 : getSeat seats b OPEN > 0
    · simp [scanPrefs, h1] at h
    · by_cases h2 : s.category ∈ RESERVED_CATS ∧ getSeat seats b s.category > 0
      · simp [scanPrefs, h1, h2] at h
      · simp only [scanPrefs, if_neg h1, if_neg h2] at h
        rcases List.mem_cons.mp hc with rfl | hc'
        · exact ⟨by omega, fun hres => by
            by_cases hcap : getSeat seats c s.category > 0
            · exact absurd ⟨hres, hcap⟩ h2
            · omega⟩
        · exact ih h c hc'

/-- Specification of a successful preference scan: the chosen branch
occurs at some position of the scanned list, its seat type is the open
one or the student's own reserved category, that seat had remaining
capacity, and every branch strictly before the found position is dead. -/
theorem scanPrefs_some_spec (seats : String → String → Int) (s : Student) :
    ∀ l b t, scanPrefs seats s l = some (b, t) →
      (t = OPEN ∨ (s.category ∈ RESERVED_CATS ∧ t = s.category)) ∧
      getSeat seats b t > 0 ∧
      ∃ m, ∃ hm : m < l.length, l.get ⟨m, hm⟩ = b ∧
        ∀ m' (hm' : m' < l.length), m' < m → deadFor seats s (l.get ⟨m', hm'⟩) := by
  intro l
  induction l with
  | nil => intro b t h; simp [scanPrefs] at h
  | cons c rest ih =>
    intro b t h
    by_cases h1 : getSeat seats c OPEN > 0
    · simp only [scanPrefs, if_pos h1] at h
      cases h
      exact ⟨Or.inl rfl, h1, 0, by simp, rfl,
        fun m' hm' hlt => absurd hlt (Nat.not_lt_zero m')⟩
    · by_cases h2 : s.category ∈ RESERVED_CATS ∧ getSeat seats c s.category > 0
      · simp only [scanPrefs, if_neg h1, if_pos h2] at h
        cases h
        exact ⟨Or.inr ⟨h2.1, rfl⟩, h2.2, 0, by simp, rfl,
          fun m' hm' hlt => absurd hlt (Nat.not_lt_zero m')⟩
      · simp only [scanPrefs, if_neg h1, if_neg h2] at h
        obtain ⟨ht, hcap, m, hm, hb, hdead⟩ := ih b t h
        refine ⟨ht, hcap, m + 1, by simpa using Nat.succ_lt_succ hm, by simpa using hb, ?_⟩
        intro m' hm' hlt
        match m' with
        | 0 =>
          show deadFor seats s c
          refine ⟨by omega, fun hres => ?_⟩
          by_cases hcap' : getSeat seats c s.category > 0
          · exact absurd ⟨hres, hcap'⟩ h2
          · omega
        | m' + 1 =>
          have h' : m' < rest.length := by simpa using hm'
          have := hdead m' h' (Nat.lt_of_succ_lt_succ hlt)
          simpa using this

/-- Per-student form of the eligibility invariant (C6): any held seat
type is one the student is eligible for. -/
def studentEligible (s : Student) : Prop :=
  match s.assigned_seat_type with
  | none => True
  | some t => eligible_for s t

instance (s : Student) : Decidable (studentEligible s) :=
  match ht : s.assigned_seat_type with
  | none => isTrue (by simp [studentEligible, ht])
  | some t => decidable_of_iff (eligible_for s t) (by simp [studentEligible, ht])

/-- The eligibility invariant: every student's held seat type, if any,
is eligible for them. -/
def EligibleInv (sys : AdmissionSystem) : Prop :=
  ∀ s ∈ sys.students, studentEligible s

instance (sys : AdmissionSystem) : Decidable (EligibleInv sys) := by
  unfold EligibleInv; infer_instance

/-- Per-student form of the assignment-state consistency invariant
(C10): the three assignment fields are simultaneously absent or
simultaneously present, and in the latter case the branch occurs in the
preference list with the recorded index. -/
def studentConsistent (s : Student) : Prop :=
  match s.assigned_branch, s.assigned_seat_type, s.assigned_pref_index with
  | none, none, none => True
  | some b, some _, some k => b ∈ s.preferences ∧ k = s.preferences.indexOf b
  | _, _, _ => False

instance (s : Student) : Decidable (studentConsistent s) :=
  match hb : s.assigned_branch, ht : s.assigned_seat_type, hk : s.assigned_pref_index with
  | none, none, none => isTrue (by simp [studentConsistent, hb, ht, hk])
  | some b, some t, some k =>
    decidable_of_iff (b ∈ s.preferences ∧ k = s.preferences.indexOf b)
      (by simp [studentConsistent, hb, ht, hk])
  | none, none, some _ => isFalse (by simp [studentConsistent, hb, ht, hk])
  | none, some _, none => isFalse (by simp [studentConsistent, hb, ht, hk])
  | none, some _, some _ => isFalse (by simp [studentConsistent, hb, ht, hk])
  | some _, none, none => isFalse (by simp [studentConsistent, hb, ht, hk])
  | some _, none, some _ => isFalse (by simp [studentConsistent, hb, ht, hk])
  | some _, some _, none => isFalse (by simp [studentConsistent, hb, ht, hk])

/-- The consistency invariant over the whole student list. -/
def ConsistentInv (sys : AdmissionSystem) : Prop :=
  ∀ s ∈ sys.students, studentConsistent s

instance (sys : AdmissionSystem) : Decidable (ConsistentInv sys) := by
  unfold ConsistentInv; infer_instance

/-- A granted record keeps a seat type the student is eligible for. -/
theorem studentEligible_grantSeat (s : Student) (b t : String)
    (h : eligible_for s t) : studentEligible (grantSeat s b t) := by
  simpa [studentEligible, grantSeat, eligible_for] using h

/-- A granted record is consistent whenever the branch occurs in the
student's preferences. -/
theorem studentConsistent_grantSeat (s : Student) (b t : String)
    (h : b ∈ s.preferences) : studentConsistent (grantSeat s b t) := by
  simp [studentConsistent, grantSeat, Student.pref_index, h]

/-- A cleared record (the `withdraw` update) is consistent. -/
theorem studentConsistent_cleared (s : Student) :
    studentConsistent (clearAssignment s) := by
  simp [studentConsistent, clearAssignment]

/-- A cleared record is trivially eligible. -/
theorem studentEligible_cleared (s : Student) :
    studentEligible (clearAssignment s) := by
  simp [studentEligible, clearAssignment]

/-- Keys compare transitively (strict into weak). -/
theorem keyLt_of_lt_of_not_lt {a b c : Key} (h1 : keyLt a b) (h2 : ¬ keyLt c b) :
    keyLt a c :=
  lt_of_lt_of_le h1 (not_lt.mp h2)

/-- A scan over a list with no wanting student returns its accumulator. -/
theorem bestAux_of_no_wanting (b t : String) :
    ∀ (l : List Student) (i0 : Nat) (acc : Option (Nat × Key)),
      (∀ s ∈ l, ¬ wantsSeat s b t) → bestAux b t l i0 acc = acc := by
  intro l
  induction l with
  | nil => intro i0 acc _; rfl
  | cons s rest ih =>
    intro i0 acc hall
    have hw : ¬ wantsSeat s b t := hall s (List.mem_cons_self s rest)
    simp only [bestAux, if_neg hw]
    exact ih (i0 + 1) acc (fun s' hs' => hall s' (List.mem_cons_of_mem s hs'))

/-- A scan started from a present accumulator always returns a value. -/
theorem bestAux_some_acc_isSome (b t : String) :
    ∀ (l : List Student) (i0 j0 : Nat) (k0 : Key),
      ∃ j k, bestAux b t l i0 (some (j0, k0)) = some (j, k) := by
  intro l
  induction l with
  | nil => intro i0 j0 k0; exact ⟨j0, k0, rfl⟩
  | cons s rest ih =>
    intro i0 j0 k0
    by_cases hw : wantsSeat s b t
    · by_cases hlt : keyLt s.key k0
      · simpa only [bestAux, if_pos hw, if_pos hlt] using ih (i0 + 1) i0 s.key
      · simpa only [bestAux, if_pos hw, if_neg hlt] using ih (i0 + 1) j0 k0
    · simpa only [bestAux, if_neg hw] using ih (i0 + 1) j0 k0

/-- A scan that returns nothing saw no wanting student. -/
theorem bestAux_none_forall (b t : String) :
    ∀ (l : List Student) (i0 : Nat) (acc : Option (Nat × Key)),
      bestAux b t l i0 acc = none → ∀ s ∈ l, ¬ wantsSeat s b t := by
  intro l
  induction l with
  | nil => intro i0 acc _ s hs; cases hs
  | cons s rest ih =>
    intro i0 acc h s' hs'
    by_cases hw : wantsSeat s b t
    · exfalso
      cases acc with
      | none =>
        simp only [bestAux, if_pos hw] at h
        obtain ⟨j, k, hjk⟩ := bestAux_some_acc_isSome b t rest (i0 + 1) i0 s.key
        rw [hjk] at h; cases h
      | some jk =>
        obtain ⟨j0, k0⟩ := jk
        simp only [bestAux, if_pos hw] at h
        by_cases hlt : keyLt s.key k0
        · rw [if_pos hlt] at h
          obtain ⟨j, k, hjk⟩ := bestAux_some_acc_isSome b t rest (i0 + 1) i0 s.key
          rw [hjk] at h; cases h
        · rw [if_neg hlt] at h
          obtain ⟨j, k, hjk⟩ := bestAux_some_acc_isSome b t rest (i0 + 1) j0 k0
          rw [hjk] at h; cases h
    · simp only [bestAux, if_neg hw] at h
      rcases List.mem_cons.mp hs' with rfl | h'
      · exact hw
      · exact ih (i0 + 1) acc h s' h'

/-- Success characterization of the scan started from an accumulator
entry: the result is either the unbeaten accumulator, or the first
strict key minimum among the wanting students of the scanned list
(strictly below every wanting student before it, not above any wanting
student after it). -/
theorem bestAux_some_acc_spec (b t : String) :
    ∀ (l : List Student) (i0 j0 : Nat) (k0 : Key) (j : Nat) (k : Key),
      bestAux b t l i0 (some (j0, k0)) = some (j, k) →
      (j = j0 ∧ k = k0 ∧
        ∀ m (hm : m < l.length), wantsSeat (l.get ⟨m, hm⟩) b t →
          ¬ keyLt (l.get ⟨m, hm⟩).key k0) ∨
      (∃ m, ∃ hm : m < l.length, j = i0 + m ∧ k = (l.get ⟨m, hm⟩).key ∧
        wantsSeat (l.get ⟨m, hm⟩) b t ∧ keyLt k k0 ∧
        (∀ m' (hm' : m' < l.length), m' < m → wantsSeat (l.get ⟨m', hm'⟩) b t →
          keyLt k (l.get ⟨m', hm'⟩).key) ∧
        (∀ m' (hm' : m' < l.length), m < m' → wantsSeat (l.get ⟨m', hm'⟩) b t →
          ¬ keyLt (l.get ⟨m', hm'⟩).key k)) := by
  intro l
  induction l with
  | nil =>
    intro i0 j0 k0 j k h
    cases h
    exact Or.inl ⟨rfl, rfl, fun m hm => absurd hm (Nat.not_lt_zero m)⟩
  | cons s rest ih =>
    intro i0 j0 k0 j k h
    by_cases hw : wantsSeat s b t
    · simp only [bestAux, if_pos hw] at h
      by_cases hlt : keyLt s.key k0
      · rw [if_pos hlt] at h
        rcases ih (i0 + 1) i0 s.key j k h with ⟨rfl, rfl, hall⟩ |
          ⟨m, hm, rfl, hk, hwm, hklt, hbef, haft⟩
        · refine Or.inr ⟨0, by simp, by omega, rfl, hw, hlt,
            fun m' hm' h0 => absurd h0 (Nat.not_lt_zero m'), ?_⟩
          intro m' hm' h0 hwm'
          match m' with
          | m' + 1 =>
            exact hall m' (by simpa using hm') (by simpa using hwm')
        · refine Or.inr ⟨m + 1, by simpa using Nat.succ_lt_succ hm, by omega,
            hk, hwm, lt_trans hklt hlt, ?_, ?_⟩
          · intro m' hm' h0 hwm'
            match m' with
            | 0 => exact hklt
            | m' + 1 =>
              exact hbef m' (by simpa using hm') (by omega) (by simpa using hwm')
          · intro m' hm' h0 hwm'
            match m' with
            | m' + 1 =>
              exact haft m' (by simpa using hm') (by omega) (by simpa using hwm')
      · rw [if_neg hlt] at h
        rcases ih (i0 + 1) j0 k0 j k h with ⟨rfl, rfl, hall⟩ |
          ⟨m, hm, rfl, hk, hwm, hklt, hbef, haft⟩
        · refine Or.inl ⟨rfl, rfl, ?_⟩
          intro m hm hwm
          match m with
          | 0 => exact hlt
          | m + 1 => exact hall m (by simpa using hm) (by simpa using hwm)
        · refine Or.inr ⟨m + 1, by simpa using Nat.succ_lt_succ hm, by omega,
            hk, hwm, hklt, ?_, ?_⟩
          · intro m' hm' h0 hwm'
            match m' with
            | 0 => exact keyLt_of_lt_of_not_lt hklt hlt
            | m' + 1 =>
              exact hbef m' (by simpa using hm') (by omega) (by simpa using hwm')
          · intro m' hm' h0 hwm'
            match m' with
            | m' + 1 =>
              exact haft m' (by simpa using hm') (by omega) (by simpa using hwm')
    · simp only [bestAux, if_neg hw] at h
      rcases ih (i0 + 1) j0 k0 j k h with ⟨rfl, rfl, hall⟩ |
        ⟨m, hm, rfl, hk, hwm, hklt, hbef, haft⟩
      · refine Or.inl ⟨rfl, rfl, ?_⟩
        intro m hm hwm
        match m with
        | 0 => exact absurd hwm hw
        | m + 1 => exact hall m (by simpa using hm) (by simpa using hwm)
      · refine Or.inr ⟨m + 1, by simpa using Nat.succ_lt_succ hm, by omega,
          hk, hwm, hklt, ?_, ?_⟩
        · intro m' hm' h0 hwm'
          match m' with
          | 0 => exact absurd hwm' hw
          | m' + 1 =>
            exact hbef m' (by simpa using hm') (by omega) (by simpa using hwm')
        · intro m' hm' h0 hwm'
          match m' with
          | m' + 1 =>
            exact haft m' (by simpa using hm') (by omega) (by simpa using hwm')

/-- Success characterization of the scan started from an empty
accumulator. -/
theorem bestAux_none_start_spec (b t : String) :
    ∀ (l : List Student) (i0 : Nat) (j : Nat) (k : Key),
      bestAux b t l i0 none = some (j, k) →
      ∃ m, ∃ hm : m < l.length, j = i0 + m ∧ k = (l.get ⟨m, hm⟩).key ∧
        wantsSeat (l.get ⟨m, hm⟩) b t ∧
        (∀ m' (hm' : m' < l.length), m' < m → wantsSeat (l.get ⟨m', hm'⟩) b t →
          keyLt k (l.get ⟨m', hm'⟩).key) ∧
        (∀ m' (hm' : m' < l.length), m < m' → wantsSeat (l.get ⟨m', hm'⟩) b t →
          ¬ keyLt (l.get ⟨m', hm'⟩).key k) := by
  intro l
  induction l with
  | nil => intro i0 j k h; cases h
  | cons s rest ih =>
    intro i0 j k h
    by_cases hw : wantsSeat s b t
    · simp only [bestAux, if_pos hw] at h
      rcases bestAux_some_acc_spec b t rest (i0 + 1) i0 s.key j k h with
        ⟨rfl, rfl, hall⟩ | ⟨m, hm, rfl, hk, hwm, hklt, hbef, haft⟩
      · refine ⟨0, by simp, by omega, rfl, hw,
          fun m' hm' h0 => absurd h0 (Nat.not_lt_zero m'), ?_⟩
        intro m' hm' h0 hwm'
        match m' with
        | m' + 1 => exact hall m' (by simpa using hm') (by simpa using hwm')
      · refine ⟨m + 1, by simpa using Nat.succ_lt_succ hm, by omega, hk, hwm, ?_, ?_⟩
        · intro m' hm' h0 hwm'
          match m' with
          | 0 => exact hklt
          | m' + 1 =>
            exact hbef m' (by simpa using hm') (by omega) (by simpa using hwm')
        · intro m' hm' h0 hwm'
          match m' with
          | m' + 1 =>
            exact haft m' (by simpa using hm') (by omega) (by simpa using hwm')
    · simp only [bestAux, if_neg hw] at h
      obtain ⟨m, hm, rfl, hk, hwm, hbef, haft⟩ := ih (i0 + 1) j k h
      refine ⟨m + 1, by simpa using Nat.succ_lt_succ hm, by omega, hk, hwm, ?_, ?_⟩
      · intro m' hm' h0 hwm'
        match m' with
        | 0 => exact absurd hwm' hw
        | m' + 1 =>
          exact hbef m' (by simpa using hm') (by omega) (by simpa using hwm')
      · intro m' hm' h0 hwm'
        match m' with
        | m' + 1 =>
          exact haft m' (by simpa using hm') (by omega) (by simpa using hwm')

/-- Position `j` holds the best candidate for `(b, t)`: a wanting
student whose key is strictly below every wanting student before it and
not above any wanting student after it. -/
def BestAt (l : List Student) (b t : String) (j : Nat) : Prop :=
  ∃ h : j < l.length,
    wantsSeat (l.get ⟨j, h⟩) b t ∧
    (∀ m (hm : m < l.length), m < j → wantsSeat (l.get ⟨m, hm⟩) b t →
      keyLt (l.get ⟨j, h⟩).key (l.get ⟨m, hm⟩).key) ∧
    (∀ m (hm : m < l.length), j < m → wantsSeat (l.get ⟨m, hm⟩) b t →
      ¬ keyLt (l.get ⟨m, hm⟩).key (l.get ⟨j, h⟩).key)

/-- The student chosen by `_best_candidate_for` is the first strict key
minimum among the eligible wanting students. -/
theorem best_candidate_for_some_spec (sys : AdmissionSystem) (b t : String)
    (j : Nat) (h : best_candidate_for sys b t = some j) :
    BestAt sys.students b t j := by
  unfold best_candidate_for at h
  match hb : bestAux b t sys.students 0 none with
  | none => rw [hb] at h; cases h
  | some jk =>
    obtain ⟨j', k⟩ := jk
    rw [hb] at h
    simp only [Option.map] at h
    injection h with h
    subst h
    obtain ⟨m, hm, hj, hk, hwm, hbef, haft⟩ :=
      bestAux_none_start_spec b t sys.students 0 j' k hb
    obtain rfl : j' = m := by omega
    exact ⟨hm, hwm, fun m' hm' hlt hw => hk ▸ hbef m' hm' hlt hw,
      fun m' hm' hlt hw => hk ▸ haft m' hm' hlt hw⟩

/-- A failed `_best_candidate_for` scan means no student wants the pair. -/
theorem best_candidate_for_none_spec (sys : AdmissionSystem) (b t : String)
    (h : best_candidate_for sys b t = none) :
    ∀ s ∈ sys.students, ¬ wantsSeat s b t := by
  unfold best_candidate_for at h
  match hb : bestAux b t sys.students 0 none with
  | none => exact bestAux_none_forall b t sys.students 0 none hb
  | some jk => rw [hb] at h; cases h

/-- Conversely, when no student wants the pair the scan fails. -/
theorem best_candidate_for_of_no_wanting (sys : AdmissionSystem) (b t : String)
    (h : ∀ s ∈ sys.students, ¬ wantsSeat s b t) :
    best_candidate_for sys b t = none := by
  unfold best_candidate_for
  rw [bestAux_of_no_wanting b t sys.students 0 none h]
  rfl

/-- Conversely, the position of a first strict key minimum among the
wanting students is exactly what `_best_candidate_for` returns. -/
theorem best_candidate_for_of_bestAt (sys : AdmissionSystem) (b t : String)
    (j : Nat) (h : BestAt sys.students b t j) :
    best_candidate_for sys b t = some j := by
  obtain ⟨hj, hw, hbef, haft⟩ := h
  match hres : best_candidate_for sys b t with
  | none =>
    exact absurd hw (best_candidate_for_none_spec sys b t hres _
      (List.get_mem sys.students j hj))
  | some j' =>
    obtain ⟨hj', hw', hbef', haft'⟩ := best_candidate_for_some_spec sys b t j' hres
    rcases Nat.lt_trichotomy j' j with hlt | rfl | hlt
    · exact absurd (hbef j' hj' hlt hw') (haft' j hj hlt hw)
    · rfl
    · exact absurd (hbef' j hj hlt hw) (haft j' hj' hlt hw')

/-- The student list after a move: position `i` is replaced by the
granted record, everything else is untouched (the freed-seat branch of
the move only changes the seat table). -/
theorem moveStudent_students (sys : AdmissionSystem) (i : Nat) (b t : String)
    (s : Student) (h : sys.students[i]? = some s) :
    (moveStudent sys i b t).students = sys.students.set i (grantSeat s b t) := by
  unfold moveStudent allocateAt
  rw [h]
  cases hpb : s.assigned_branch <;> cases hpt : s.assigned_seat_type <;>
    simp [hpb, hpt]

/-- The granted record's measure is its new preference index, strictly
below the measure of the wanting student it replaces. -/
theorem measureOf_grantSeat_lt (s : Student) (b t : String)
    (hw : wantsSeat s b t) : measureOf (grantSeat s b t) < measureOf s := by
  obtain ⟨hmem, -, hpref⟩ := hw
  have hidx : s.pref_index b < s.preferences.length := by
    unfold Student.pref_index
    rw [if_pos hmem]
    exact List.indexOf_lt_length.mpr hmem
  have hnew : measureOf (grantSeat s b t) = s.pref_index b := rfl
  rw [hnew]
  obtain ⟨-, hp2⟩ := hpref
  cases hb : s.assigned_branch with
  | none =>
    have hms : measureOf s = s.preferences.length + 1 := by simp [measureOf, hb]
    omega
  | some pb =>
    cases hk : s.assigned_pref_index with
    | none =>
      have hms : measureOf s = s.preferences.length + 1 := by simp [measureOf, hb, hk]
      omega
    | some k =>
      have hms : measureOf s = k := by simp [measureOf, hb, hk]
      rcases hp2 with hnone | hlt
      · rw [hb] at hnone; cases hnone
      · rw [hk] at hlt
        simp only [Option.getD] at hlt
        omega

/-- Replacing one list entry by one of smaller `f`-value strictly
decreases the summed image. -/
theorem sum_map_set_lt (f : Student → Nat) :
    ∀ (l : List Student) (i : Nat) (x : Student) (h : i < l.length),
      f x < f (l.get ⟨i, h⟩) → ((l.set i x).map f).sum < (l.map f).sum
  | a :: l, 0, x, _, hlt => by
    simp only [List.set, List.map, List.sum_cons]
    exact Nat.add_lt_add_right hlt _
  | a :: l, i + 1, x, h, hlt => by
    simp only [List.set, List.map, List.sum_cons]
    exact Nat.add_lt_add_left
      (sum_map_set_lt f l i x (Nat.lt_of_succ_lt_succ h) hlt) _

/-- Every move of the cascade strictly decreases the total measure. -/
theorem totalMeasure_move_lt (sys : AdmissionSystem) (b t : String) (i : Nat)
    (h : best_candidate_for sys b t = some i) :
    totalMeasure (moveStudent sys i b t) < totalMeasure sys := by
  obtain ⟨hi, hw, -, -⟩ := best_candidate_for_some_spec sys b t i h
  have hget : sys.students[i]? = some (sys.students.get ⟨i, hi⟩) :=
    List.getElem?_eq_getElem hi
  unfold totalMeasure
  rw [moveStudent_students sys i b t _ hget]
  exact sum_map_set_lt measureOf sys.students i _ hi (measureOf_grantSeat_lt _ b t hw)

/-- The cascade does nothing on an empty queue. -/
theorem upgradeGo_nil : ∀ (fuel : Nat) (sys : AdmissionSystem),
    upgradeGo fuel sys [] = sys
  | 0, _ => rfl
  | _ + 1, _ => rfl

/-- At most one freed pair is queued per move. -/
theorem prevVacancy_length (sys : AdmissionSystem) (i : Nat) :
    (prevVacancy sys i).length ≤ 1 := by
  unfold prevVacancy
  cases sys.students[i]? with
  | none => simp
  | some s =>
    cases h1 : s.assigned_branch <;> cases h2 : s.assigned_seat_type <;>
      simp [h1, h2]

/-- Fuel bound: beyond `upgradeFuel` extra fuel never changes the
result, i.e. the loop reaches its natural exit within the bound. -/
theorem upgradeGo_stable : ∀ (n m : Nat) (sys : AdmissionSystem)
    (q : List (String × String)), upgradeFuel sys q ≤ n → n ≤ m →
    upgradeGo m sys q = upgradeGo n sys q := by
  intro n
  induction n using Nat.strong_induction_on with
  | _ n ih =>
    intro m sys q hfn hnm
    match q with
    | [] => rw [upgradeGo_nil, upgradeGo_nil]
    | (b, t) :: rest =>
      have hq : upgradeFuel sys ((b, t) :: rest) =
          2 * totalMeasure sys + (rest.length + 1) := by
        simp [upgradeFuel]
      obtain ⟨n', rfl⟩ : ∃ n', n = n' + 1 := ⟨n - 1, by omega⟩
      obtain ⟨m', rfl⟩ : ∃ m', m = m' + 1 := ⟨m - 1, by omega⟩
      rw [hq] at hfn
      have hrest : upgradeFuel sys rest ≤ n' := by
        simp only [upgradeFuel]
        omega
      simp only [upgradeGo]
      by_cases hcap : getSeat sys.seats b t > 0
      · rw [if_pos hcap, if_pos hcap]
        cases hbest : best_candidate_for sys b t with
        | none => exact ih n' (by omega) m' sys rest hrest (by omega)
        | some i =>
          have hmlt := totalMeasure_move_lt sys b t i hbest
          have hplen := prevVacancy_length sys i
          refine ih n' (by omega) m' _ _ ?_ (by omega)
          simp only [upgradeFuel, List.length_cons, List.length_append]
          omega
      · rw [if_neg hcap, if_neg hcap]
        exact ih n' (by omega) m' sys rest hrest (by omega)

/-- The longest preference list of any candidate. -/
def maxPrefLen (sys : AdmissionSystem) : Nat :=
  (sys.students.map (fun s => s.preferences.length)).foldr max 0

/-- Every member is bounded by the folded maximum. -/
theorem le_foldr_max : ∀ (l : List Nat) (x : Nat), x ∈ l → x ≤ l.foldr max 0 := by
  intro l
  induction l with
  | nil => intro x hx; cases hx
  | cons a l ih =>
    intro x hx
    rcases List.mem_cons.mp hx with rfl | hx'
    · exact le_max_left _ _
    · exact le_trans (ih x hx') (le_max_right _ _)

/-- The total measure is bounded by candidates times the maximum
preference length plus one, for index-consistent states. -/
theorem totalMeasure_le (sys : AdmissionSystem)
    (h : ∀ s ∈ sys.students, ∀ k, s.assigned_pref_index = some k →
      k ≤ s.preferences.length) :
    totalMeasure sys ≤ sys.students.length * (maxPrefLen sys + 1) := by
  have hb : ∀ x ∈ sys.students.map measureOf, x ≤ maxPrefLen sys + 1 := by
    intro x hx
    obtain ⟨s, hs, rfl⟩ := List.mem_map.mp hx
    have hlen : s.preferences.length ≤ maxPrefLen sys :=
      le_foldr_max _ _ (List.mem_map_of_mem _ hs)
    cases hbr : s.assigned_branch <;> cases hk2 : s.assigned_pref_index <;>
      simp only [measureOf, hbr, hk2]
    case some.some k =>
      have := h s hs k hk2
      omega
    all_goals omega
  have := List.sum_le_card_nsmul (sys.students.map measureOf) (maxPrefLen sys + 1) hb
  simpa [totalMeasure, smul_eq_mul] using this

/-- C5: the cascading reallocation terminates.  Every completed move
strictly decreases the total measure; consequently the fueled loop is
already stable at the definition's fuel bound (any larger fuel yields
the same final state, i.e. the loop reaches its natural exit within the
bound); and on index-consistent states the measure, which bounds the
number of moves, is at most the number of candidates times the maximum
preference-list length plus one. -/
theorem upgrade_and_fill_terminates (sys : AdmissionSystem) (b t : String) :
    (∀ i, best_candidate_for sys b t = some i →
      totalMeasure (moveStudent sys i b t) < totalMeasure sys) ∧
    (∀ fuel, upgradeFuel sys [(b, t)] ≤ fuel →
      upgradeGo fuel sys [(b, t)] = upgrade_and_fill sys b t) ∧
    ((∀ s ∈ sys.students, ∀ k, s.assigned_pref_index = some k →
        k ≤ s.preferences.length) →
      totalMeasure sys ≤ sys.students.length * (maxPrefLen sys + 1)) :=
  ⟨fun i h => totalMeasure_move_lt sys b t i h,
   fun fuel hf => upgradeGo_stable (upgradeFuel sys [(b, t)]) fuel sys [(b, t)]
     le_rfl hf,
   totalMeasure_le sys⟩

/-- C5 witness: the fuel bound and measure bound on the reference
configuration. -/
theorem upgrade_and_fill_terminates_witness :
    upgradeGo (upgradeFuel demoSys [("CSE", OPEN)]) demoSys [("CSE", OPEN)] =
      upgrade_and_fill demoSys "CSE" OPEN ∧
    totalMeasure demoSys ≤ demoSys.students.length * (maxPrefLen demoSys + 1) :=
  ⟨(upgrade_and_fill_terminates demoSys "CSE" OPEN).2.1 _ le_rfl,
   (upgrade_and_fill_terminates demoSys "CSE" OPEN).2.2 (by decide)⟩

/-- Case analysis for `withdraw`: either it is the identity (unknown id
or no all-some assignment) or it frees the held seat, clears the
student and cascades. -/
theorem withdraw_cases (sys : AdmissionSystem) (sid : String) :
    withdraw sys sid = sys ∨
    ∃ i b t, sys.students.findIdx? (fun st => st.sid == sid) = some i ∧
      (sys.students.getD i default).assigned_branch = some b ∧
      (sys.students.getD i default).assigned_seat_type = some t ∧
      withdraw sys sid = upgrade_and_fill
        { seats := setSeat sys.seats b t (getSeat sys.seats b t + 1),
          students := sys.students.set i
            (clearAssignment (sys.students.getD i default)) } b t := by
  unfold withdraw
  cases hf : sys.students.findIdx? (fun st => st.sid == sid) with
  | none => exact Or.inl rfl
  | some i =>
    cases hb : (sys.students.getD i default).assigned_branch with
    | none =>
      refine Or.inl ?_
      rw [List.getD_eq_getElem?_getD] at hb
      simp [hb]
    | some b =>
      cases ht : (sys.students.getD i default).assigned_seat_type with
      | none =>
        refine Or.inl ?_
        rw [List.getD_eq_getElem?_getD] at hb ht
        simp [hb, ht]
      | some t =>
        refine Or.inr ⟨i, b, t, rfl, hb, ht, ?_⟩
        rw [List.getD_eq_getElem?_getD] at hb ht
        simp [hb, ht, List.getD_eq_getElem?_getD]

/-- Transport of a pointwise list property through `List.set`. -/
theorem forall_mem_set {P : Student → Prop} {l : List Student}
    (h : ∀ s ∈ l, P s) (i : Nat) (x : Student) (hx : P x) :
    ∀ s ∈ l.set i x, P s := by
  intro s hs
  rcases List.mem_or_eq_of_mem_set hs with h' | rfl
  · exact h s h'
  · exact hx

/-- Eligibility is preserved by one step of initial allocation. -/
theorem EligibleInv_processAt (sys : AdmissionSystem) (i : Nat)
    (h : EligibleInv sys) : EligibleInv (processAt sys i) := by
  unfold processAt
  cases hs : sys.students[i]? with
  | none => exact h
  | some s =>
    dsimp only
    cases hscan : scanPrefs sys.seats s s.preferences with
    | none => exact h
    | some bt =>
      obtain ⟨b, t⟩ := bt
      dsimp only
      unfold allocateAt
      rw [hs]
      show ∀ s' ∈ sys.students.set i (grantSeat s b t), studentEligible s'
      refine forall_mem_set h i _ ?_
      obtain ⟨ht, -, -⟩ := scanPrefs_some_spec sys.seats s s.preferences b t hscan
      apply studentEligible_grantSeat
      rcases ht with rfl | ⟨-, rfl⟩
      · exact Or.inl rfl
      · exact Or.inr rfl

/-- Eligibility is preserved by the whole initial-allocation fold. -/
theorem EligibleInv_initGo : ∀ (n i : Nat) (sys : AdmissionSystem),
    EligibleInv sys → EligibleInv (initGo n i sys)
  | 0, _, _, h => h
  | n + 1, i, sys, h =>
    EligibleInv_initGo n (i + 1) (processAt sys i) (EligibleInv_processAt sys i h)

/-- Eligibility is preserved by one move of the cascade. -/
theorem EligibleInv_moveStudent (sys : AdmissionSystem) (b t : String) (i : Nat)
    (hbest : best_candidate_for sys b t = some i) (h : EligibleInv sys) :
    EligibleInv (moveStudent sys i b t) := by
  obtain ⟨hi, hw, -, -⟩ := best_candidate_for_some_spec sys b t i hbest
  have hget : sys.students[i]? = some (sys.students.get ⟨i, hi⟩) :=
    List.getElem?_eq_getElem hi
  show ∀ s' ∈ (moveStudent sys i b t).students, studentEligible s'
  rw [moveStudent_students sys i b t _ hget]
  exact forall_mem_set h i _ (studentEligible_grantSeat _ b t hw.2.1)

/-- Eligibility is preserved by the cascade loop. -/
theorem EligibleInv_upgradeGo : ∀ (fuel : Nat) (sys : AdmissionSystem)
    (q : List (String × String)), EligibleInv sys →
    EligibleInv (upgradeGo fuel sys q)
  | 0, _, _, h => h
  | _ + 1, _, [], h => h
  | fuel + 1, sys, (b, t) :: rest, h => by
    simp only [upgradeGo]
    by_cases hcap : getSeat sys.seats b t > 0
    · rw [if_pos hcap]
      cases hbest : best_candidate_for sys b t with
      | none => exact EligibleInv_upgradeGo fuel sys rest h
      | some i =>
        exact EligibleInv_upgradeGo fuel _ _
          (EligibleInv_moveStudent sys b t i hbest h)
    · rw [if_neg hcap]
      exact EligibleInv_upgradeGo fuel sys rest h

/-- C6: every public operation preserves the eligibility invariant:
any candidate may hold an open seat, and a reserved seat is held only
by candidates of that category.  (Seat-table-only updates cannot break
it, grants are checked eligible, withdrawal clears the fields.) -/
theorem eligibility_invariant (sys : AdmissionSystem) (h : EligibleInv sys) :
    EligibleInv (initial_allocation sys) ∧
    (∀ sid, EligibleInv (withdraw sys sid)) ∧
    (∀ b t delta, EligibleInv (add_capacity sys b t delta)) := by
  refine ⟨?_, ?_, ?_⟩
  · unfold initial_allocation
    apply EligibleInv_initGo
    intro s hs
    exact h s ((List.perm_insertionSort studentRel sys.students).subset hs)
  · intro sid
    rcases withdraw_cases sys sid with heq | ⟨i, b, t, -, -, -, heq⟩
    · rw [heq]; exact h
    · rw [heq]
      apply EligibleInv_upgradeGo
      exact forall_mem_set h i _ (studentEligible_cleared _)
  · intro b t delta
    apply EligibleInv_upgradeGo
    exact h

/-- C6 witness: the eligibility invariant after each operation on the
reference configuration. -/
theorem eligibility_invariant_witness :
    EligibleInv (initial_allocation demoSys) ∧
    EligibleInv (withdraw demoSys "S1") ∧
    EligibleInv (add_capacity demoSys "CSE" OPEN 1) :=
  ⟨(eligibility_invariant demoSys (by decide)).1,
   (eligibility_invariant demoSys (by decide)).2.1 "S1",
   (eligibility_invariant demoSys (by decide)).2.2 "CSE" OPEN 1⟩

/-- Consistency is preserved by one step of initial allocation. -/
theorem ConsistentInv_processAt (sys : AdmissionSystem) (i : Nat)
    (h : ConsistentInv sys) : ConsistentInv (processAt sys i) := by
  unfold processAt
  cases hs : sys.students[i]? with
  | none => exact h
  | some s =>
    dsimp only
    cases hscan : scanPrefs sys.seats s s.preferences with
    | none => exact h
    | some bt =>
      obtain ⟨b, t⟩ := bt
      dsimp only
      unfold allocateAt
      rw [hs]
      show ∀ s' ∈ sys.students.set i (grantSeat s b t), studentConsistent s'
      refine forall_mem_set h i _ ?_
      obtain ⟨-, -, m, hm, hb, -⟩ := scanPrefs_some_spec sys.seats s s.preferences b t hscan
      exact studentConsistent_grantSeat s b t (hb ▸ List.get_mem _ m hm)

/-- Consistency is preserved by the whole initial-allocation fold. -/
theorem ConsistentInv_initGo : ∀ (n i : Nat) (sys : AdmissionSystem),
    ConsistentInv sys → ConsistentInv (initGo n i sys)
  | 0, _, _, h => h
  | n + 1, i, sys, h =>
    ConsistentInv_initGo n (i + 1) (processAt sys i) (ConsistentInv_processAt sys i h)

/-- Consistency is preserved by one move of the cascade. -/
theorem ConsistentInv_moveStudent (sys : AdmissionSystem) (b t : String) (i : Nat)
    (hbest : best_candidate_for sys b t = some i) (h : ConsistentInv sys) :
    ConsistentInv (moveStudent sys i b t) := by
  obtain ⟨hi, hw, -, -⟩ := best_candidate_for_some_spec sys b t i hbest
  have hget : sys.students[i]? = some (sys.students.get ⟨i, hi⟩) :=
    List.getElem?_eq_getElem hi
  show ∀ s' ∈ (moveStudent sys i b t).students, studentConsistent s'
  rw [moveStudent_students sys i b t _ hget]
  exact forall_mem_set h i _ (studentConsistent_grantSeat _ b t hw.1)

/-- Consistency is preserved by the cascade loop. -/
theorem ConsistentInv_upgradeGo : ∀ (fuel : Nat) (sys : AdmissionSystem)
    (q : List (String × String)), ConsistentInv sys →
    ConsistentInv (upgradeGo fuel sys q)
  | 0, _, _, h => h
  | _ + 1, _, [], h => h
  | fuel + 1, sys, (b, t) :: rest, h => by
    simp only [upgradeGo]
    by_cases hcap : getSeat sys.seats b t > 0
    · rw [if_pos hcap]
      cases hbest : best_candidate_for sys b t with
      | none => exact ConsistentInv_upgradeGo fuel sys rest h
      | some i =>
        exact ConsistentInv_upgradeGo fuel _ _
          (ConsistentInv_moveStudent sys b t i hbest h)
    · rw [if_neg hcap]
      exact ConsistentInv_upgradeGo fuel sys rest h

/-- C10: every public operation preserves assignment-state consistency
(the three fields all set or all `none`; when set, the branch occurs in
the candidate's preference list and the stored index is its index
there), and consequently no candidate is ever assigned a branch outside
their own preference list. -/
theorem consistency_invariant (sys : AdmissionSystem) (h : ConsistentInv sys) :
    ConsistentInv (initial_allocation sys) ∧
    (∀ sid, ConsistentInv (withdraw sys sid)) ∧
    (∀ b t delta, ConsistentInv (add_capacity sys b t delta)) ∧
    (∀ sys' : AdmissionSystem, ConsistentInv sys' →
      ∀ s ∈ sys'.students, ∀ b, s.assigned_branch = some b → b ∈ s.preferences) := by
  refine ⟨?_, ?_, ?_, ?_⟩
  · unfold initial_allocation
    apply ConsistentInv_initGo
    intro s hs
    exact h s ((List.perm_insertionSort studentRel sys.students).subset hs)
  · intro sid
    rcases withdraw_cases sys sid with heq | ⟨i, b, t, -, -, -, heq⟩
    · rw [heq]; exact h
    · rw [heq]
      apply ConsistentInv_upgradeGo
      exact forall_mem_set h i _ (studentConsistent_cleared _)
  · intro b t delta
    apply ConsistentInv_upgradeGo
    exact h
  · intro sys' h' s hs b hb
    have := h' s hs
    unfold studentConsistent at this
    rw [hb] at this
    cases ht : s.assigned_seat_type with
    | none => rw [ht] at this; cases s.assigned_pref_index <;> exact absurd this id
    | some t =>
      rw [ht] at this
      cases hk : s.assigned_pref_index with
      | none => rw [hk] at this; exact absurd this id
      | some k => rw [hk] at this; exact this.1

/-- The number of candidates currently holding seat `(b, t)`. -/
def heldCount (sys : AdmissionSystem) (b t : String) : Nat :=
  sys.students.countP
    (fun s => decide (s.assigned_branch = some b ∧ s.assigned_seat_type = some t))

/-- Remaining capacity plus held count for one pair.  Capacity
conservation (C3) says the public operations preserve it (shifting it
only by the delta of `add_capacity` at the changed pair), so it always
equals the total capacity ever configured for the pair. -/
def seatBalance (sys : AdmissionSystem) (b t : String) : Int :=
  sys.seats b t + heldCount sys b t

/-- Additive form of `countP` across a single `List.set`. -/
theorem countP_set_add (p : Student → Bool) :
    ∀ (l : List Student) (i : Nat) (x : Student) (h : i < l.length),
      (l.set i x).countP p + (if p (l.get ⟨i, h⟩) then 1 else 0) =
        l.countP p + (if p x then 1 else 0)
  | a :: l, 0, x, _ => by
    simp only [List.set, List.countP_cons, List.get_eq_getElem,
      List.getElem_cons_zero]
    split_ifs <;> omega
  | a :: l, i + 1, x, h => by
    simp only [List.set, List.countP_cons, List.get_eq_getElem,
      List.getElem_cons_succ]
    have := countP_set_add p l i x (Nat.lt_of_succ_lt_succ h)
    simp only [List.get_eq_getElem] at this
    split_ifs at this ⊢ <;> omega

/-- `countP_set_add` with both indicator values supplied separately, so
use sites can discharge them by simp without disturbing the count
atoms. -/
theorem countP_set_add' (p : Student → Bool) (l : List Student) (i : Nat)
    (x : Student) (h : i < l.length) (cOld cNew : Nat)
    (hOld : (if p (l.get ⟨i, h⟩) then 1 else 0 : Nat) = cOld)
    (hNew : (if p x then 1 else 0 : Nat) = cNew) :
    (l.set i x).countP p + cOld = l.countP p + cNew := by
  rw [← hOld, ← hNew]
  exact countP_set_add p l i x h

/-- One cascade move conserves every pair's balance: the new seat's
decrement is matched by the mover now holding it, and the freed seat's
increment by the mover no longer holding it. -/
theorem seatBalance_moveStudent (sys : AdmissionSystem) (i : Nat) (b t x y : String) :
    seatBalance (moveStudent sys i b t) x y = seatBalance sys x y := by
  cases hs : sys.students[i]? with
  | none => unfold moveStudent; rw [hs]
  | some s =>
    obtain ⟨hi, hgs⟩ := List.getElem?_eq_some.mp hs
    have hcount := countP_set_add
      (fun s' => decide (s'.assigned_branch = some x ∧ s'.assigned_seat_type = some y))
      sys.students i (grantSeat s b t) hi
    simp only [List.get_eq_getElem, hgs] at hcount
    have hcg : (if (decide ((grantSeat s b t).assigned_branch = some x ∧
        (grantSeat s b t).assigned_seat_type = some y)) then 1 else 0 : Nat) =
        if x = b ∧ y = t then 1 else 0 := by
      by_cases hxy : x = b ∧ y = t
      · obtain ⟨rfl, rfl⟩ := hxy
        simp [grantSeat]
      · rw [if_neg hxy, if_neg]
        intro hc
        simp only [grantSeat, Option.some_inj, decide_eq_true_iff] at hc
        exact hxy ⟨hc.1.symm, hc.2.symm⟩
    rw [hcg] at hcount
    unfold moveStudent allocateAt
    rw [hs]
    dsimp only
    cases hpb : s.assigned_branch with
    | none =>
      dsimp only
      have hcs : (if (decide (s.assigned_branch = some x ∧
          s.assigned_seat_type = some y)) then 1 else 0 : Nat) = 0 := by
        simp [hpb]
      rw [hcs] at hcount
      by_cases hxy : x = b ∧ y = t
      · obtain ⟨rfl, rfl⟩ := hxy
        simp only [seatBalance, heldCount, getSeat, setSeat, and_self,
          if_true] at hcount ⊢
        omega
      · simp only [seatBalance, heldCount, getSeat, setSeat,
          if_neg hxy] at hcount ⊢
        omega
    | some pb =>
      cases hpt : s.assigned_seat_type with
      | none =>
        dsimp only
        have hcs : (if (decide (s.assigned_branch = some x ∧
            s.assigned_seat_type = some y)) then 1 else 0 : Nat) = 0 := by
          simp [hpt]
        rw [hcs] at hcount
        by_cases hxy : x = b ∧ y = t
        · obtain ⟨rfl, rfl⟩ := hxy
          simp only [seatBalance, heldCount, getSeat, setSeat, and_self,
            if_true] at hcount ⊢
          omega
        · simp only [seatBalance, heldCount, getSeat, setSeat,
            if_neg hxy] at hcount ⊢
          omega
      | some pt =>
        dsimp only
        have hcs : (if (decide (s.assigned_branch = some x ∧
            s.assigned_seat_type = some y)) then 1 else 0 : Nat) =
            if x = pb ∧ y = pt then 1 else 0 := by
          by_cases hpq : x = pb ∧ y = pt
          · obtain ⟨rfl, rfl⟩ := hpq
            simp [hpb, hpt]
          · rw [if_neg hpq, if_neg]
            intro hc
            rw [hpb, hpt] at hc
            simp only [Option.some_inj, decide_eq_true_iff] at hc
            exact hpq ⟨hc.1.symm, hc.2.symm⟩
        rw [hcs] at hcount
        by_cases hxy : x = b ∧ y = t
        · obtain ⟨rfl, rfl⟩ := hxy
          by_cases hpq : x = pb ∧ y = pt
          · obtain ⟨rfl, rfl⟩ := hpq
            simp only [seatBalance, heldCount, getSeat, setSeat, and_self,
              if_true] at hcount ⊢
            omega
          · have hpq2 : ¬ (pb = x ∧ pt = y) := fun hc => hpq ⟨hc.1.symm, hc.2.symm⟩
            simp only [seatBalance, heldCount, getSeat, setSeat, and_self,
              if_true, if_neg hpq, if_neg hpq2] at hcount ⊢
            omega
        · by_cases hpq : x = pb ∧ y = pt
          · obtain ⟨rfl, rfl⟩ := hpq
            simp only [seatBalance, heldCount, getSeat, setSeat, and_self,
              if_true, if_neg hxy] at hcount ⊢
            omega
          · simp only [seatBalance, heldCount, getSeat, setSeat,
              if_neg hxy, if_neg hpq] at hcount ⊢
            omega

/-- The cascade loop conserves every pair's balance. -/
theorem seatBalance_upgradeGo : ∀ (fuel : Nat) (sys : AdmissionSystem)
    (q : List (String × String)) (x y : String),
    seatBalance (upgradeGo fuel sys q) x y = seatBalance sys x y
  | 0, _, _, _, _ => rfl
  | _ + 1, _, [], _, _ => rfl
  | fuel + 1, sys, (b, t) :: rest, x, y => by
    simp only [upgradeGo]
    by_cases hcap : getSeat sys.seats b t > 0
    · rw [if_pos hcap]
      cases hbest : best_candidate_for sys b t with
      | none => exact seatBalance_upgradeGo fuel sys rest x y
      | some i =>
        rw [seatBalance_upgradeGo fuel _ _ x y]
        exact seatBalance_moveStudent sys i b t x y
    · rw [if_neg hcap]
      exact seatBalance_upgradeGo fuel sys rest x y

/-- Students from position `i` onward are still unassigned (the part of
the sorted list the initial-allocation fold has not reached yet). -/
def UnassignedFrom (sys : AdmissionSystem) (i : Nat) : Prop :=
  ∀ j (hj : j < sys.students.length), i ≤ j →
    (sys.students.get ⟨j, hj⟩).assigned_branch = none

/-- One initial-allocation step conserves every balance when the
processed student is still unassigned. -/
theorem seatBalance_processAt (sys : AdmissionSystem) (i : Nat)
    (hun : UnassignedFrom sys i) (x y : String) :
    seatBalance (processAt sys i) x y = seatBalance sys x y := by
  unfold processAt
  cases hs : sys.students[i]? with
  | none => rfl
  | some s =>
    dsimp only
    cases hscan : scanPrefs sys.seats s s.preferences with
    | none => rfl
    | some bt =>
      obtain ⟨b, t⟩ := bt
      dsimp only
      obtain ⟨hi, hgs⟩ := List.getElem?_eq_some.mp hs
      have hsb : s.assigned_branch = none := by
        have := hun i hi le_rfl
        simpa [List.get_eq_getElem, hgs] using this
      have hcount := countP_set_add
        (fun s' => decide (s'.assigned_branch = some x ∧ s'.assigned_seat_type = some y))
        sys.students i (grantSeat s b t) hi
      simp only [List.get_eq_getElem, hgs] at hcount
      have hcs : (if (decide (s.assigned_branch = some x ∧
          s.assigned_seat_type = some y)) then 1 else 0 : Nat) = 0 := by
        simp [hsb]
      rw [hcs] at hcount
      have hcg : (if (decide ((grantSeat s b t).assigned_branch = some x ∧
          (grantSeat s b t).assigned_seat_type = some y)) then 1 else 0 : Nat) =
          if x = b ∧ y = t then 1 else 0 := by
        by_cases hxy : x = b ∧ y = t
        · obtain ⟨rfl, rfl⟩ := hxy
          simp [grantSeat]
        · rw [if_neg hxy, if_neg]
          intro hc
          simp only [grantSeat, Option.some_inj, decide_eq_true_iff] at hc
          exact hxy ⟨hc.1.symm, hc.2.symm⟩
      rw [hcg] at hcount
      unfold allocateAt
      rw [hs]
      simp only [seatBalance, heldCount, getSeat, setSeat]
      by_cases hxy : x = b ∧ y = t
      · obtain ⟨rfl, rfl⟩ := hxy
        rw [if_pos ⟨rfl, rfl⟩] at hcount ⊢
        omega
      · rw [if_neg hxy] at hcount ⊢
        omega

/-- `processAt` keeps the number of students. -/
theorem processAt_length (sys : AdmissionSystem) (i : Nat) :
    (processAt sys i).students.length = sys.students.length := by
  unfold processAt
  cases hs : sys.students[i]? with
  | none => rfl
  | some s =>
    dsimp only
    cases hscan : scanPrefs sys.seats s s.preferences with
    | none => rfl
    | some bt =>
      obtain ⟨b, t⟩ := bt
      dsimp only
      unfold allocateAt
      rw [hs]
      exact List.length_set sys.students i _

/-- `processAt` leaves every other position untouched. -/
theorem processAt_getElem?_ne (sys : AdmissionSystem) (i j : Nat) (hne : i ≠ j) :
    (processAt sys i).students[j]? = sys.students[j]? := by
  unfold processAt
  cases hs : sys.students[i]? with
  | none => rfl
  | some s =>
    dsimp only
    cases hscan : scanPrefs sys.seats s s.preferences with
    | none => rfl
    | some bt =>
      obtain ⟨b, t⟩ := bt
      dsimp only
      unfold allocateAt
      rw [hs]
      show (sys.students.set i (grantSeat s b t))[j]? = sys.students[j]?
      rw [List.getElem?_set]
      exact if_neg hne

/-- `processAt` touches only position `i`, so the unprocessed suffix
stays unassigned. -/
theorem UnassignedFrom_processAt (sys : AdmissionSystem) (i : Nat)
    (hun : UnassignedFrom sys i) : UnassignedFrom (processAt sys i) (i + 1) := by
  intro j hj hij
  have hj' : j < sys.students.length := by
    rw [← processAt_length sys i]; exact hj
  have hq : (processAt sys i).students[j]? = sys.students[j]? :=
    processAt_getElem?_ne sys i j (by omega)
  rw [List.getElem?_eq_getElem hj, List.getElem?_eq_getElem hj'] at hq
  injection hq with hq
  have h1 : (processAt sys i).students.get ⟨j, hj⟩ = sys.students.get ⟨j, hj'⟩ := by
    simpa [List.get_eq_getElem] using hq
  rw [h1]
  exact hun j hj' (by omega)

/-- The initial-allocation fold conserves every balance from an
all-unassigned suffix. -/
theorem seatBalance_initGo : ∀ (n i : Nat) (sys : AdmissionSystem),
    UnassignedFrom sys i → ∀ x y,
    seatBalance (initGo n i sys) x y = seatBalance sys x y
  | 0, _, _, _, _, _ => rfl
  | n + 1, i, sys, hun, x, y => by
    simp only [initGo]
    rw [seatBalance_initGo n (i + 1) (processAt sys i)
      (UnassignedFrom_processAt sys i hun) x y]
    exact seatBalance_processAt sys i hun x y

/-- C3: capacity conservation.  Initial allocation from an unassigned
candidate list preserves every pair's remaining-plus-held balance;
`withdraw` preserves it; `add_capacity` shifts it by exactly the delta
at the changed pair and preserves it elsewhere.  By induction over any
operation sequence the balance therefore always equals the total
capacity ever configured for the pair. -/
theorem capacity_conservation (sys : AdmissionSystem) :
    ((∀ s ∈ sys.students, s.assigned_branch = none) →
      ∀ b t, seatBalance (initial_allocation sys) b t = seatBalance sys b t) ∧
    (∀ sid b t, seatBalance (withdraw sys sid) b t = seatBalance sys b t) ∧
    (∀ b' t' (delta : Int) b t,
      seatBalance (add_capacity sys b' t' delta) b t =
        seatBalance sys b t + (if b = b' ∧ t = t' then delta else 0)) := by
  refine ⟨?_, ?_, ?_⟩
  · intro hun b t
    unfold initial_allocation
    have hperm := List.perm_insertionSort studentRel sys.students
    have hbal : seatBalance { sys with
        students := sys.students.insertionSort studentRel } b t =
        seatBalance sys b t := by
      simp only [seatBalance, heldCount]
      rw [List.Perm.countP_eq _ hperm]
    rw [seatBalance_initGo _ 0 _ ?_ b t, hbal]
    intro j hj _
    exact hun _ (hperm.subset (List.get_mem _ j hj))
  · intro sid b t
    rcases withdraw_cases sys sid with heq | ⟨i, b0, t0, hf, hb0, ht0, heq⟩
    · rw [heq]
    · rw [heq]
      unfold upgrade_and_fill
      rw [seatBalance_upgradeGo]
      obtain ⟨hfi, hfp, -⟩ := findIdx?_some_spec (fun st => st.sid == sid) sys.students i hf
      have hgd : sys.students.getD i default = sys.students.get ⟨i, hfi⟩ := by
        rw [List.getD_eq_getElem?_getD, List.getElem?_eq_getElem hfi]
        rfl
      rw [hgd] at hb0 ht0
      rw [hgd]
      by_cases hq : b = b0 ∧ t = t0
      · obtain ⟨rfl, rfl⟩ := hq
        have hcount := countP_set_add'
          (fun s' => decide (s'.assigned_branch = some b ∧ s'.assigned_seat_type = some t))
          sys.students i (clearAssignment (sys.students.get ⟨i, hfi⟩)) hfi 1 0
          (by rw [List.get_eq_getElem] at hb0 ht0; simp [hb0, ht0])
          (by simp [clearAssignment])
        simp only [seatBalance, heldCount, getSeat, setSeat, and_self,
          if_true]
        omega
      · have hq2 : ¬ (b0 = b ∧ t0 = t) := fun hc => hq ⟨hc.1.symm, hc.2.symm⟩
        have hcount := countP_set_add'
          (fun s' => decide (s'.assigned_branch = some b ∧ s'.assigned_seat_type = some t))
          sys.students i (clearAssignment (sys.students.get ⟨i, hfi⟩)) hfi 0 0
          (by rw [List.get_eq_getElem] at hb0 ht0
              refine if_neg ?_
              simp only [List.get_eq_getElem, decide_eq_true_iff, hb0, ht0,
                Option.some.injEq]
              exact fun hcon => hq2 hcon)
          (by simp [clearAssignment])
        simp only [seatBalance, heldCount, getSeat, setSeat, if_neg hq]
        omega
  · intro b' t' delta b t
    unfold add_capacity
    unfold upgrade_and_fill
    rw [seatBalance_upgradeGo]
    simp only [seatBalance, heldCount, getSeat, setSeat]
    by_cases hq : b = b' ∧ t = t'
    · rw [if_pos hq, if_pos hq]
      obtain ⟨rfl, rfl⟩ := hq
      ring
    · rw [if_neg hq, if_neg hq]
      ring

/-- C3 witness: conservation on the reference configuration. -/
theorem capacity_conservation_witness :
    seatBalance (initial_allocation demoSys) "CSE" OPEN =
      seatBalance demoSys "CSE" OPEN ∧
    seatBalance (withdraw demoSys "S1") "CSE" OPEN =
      seatBalance demoSys "CSE" OPEN ∧
    seatBalance (add_capacity demoSys "CSE" OPEN 1) "CSE" OPEN =
      seatBalance demoSys "CSE" OPEN + (if "CSE" = "CSE" ∧ OPEN = OPEN then 1 else 0) :=
  ⟨(capacity_conservation demoSys).1 (by decide) "CSE" OPEN,
   (capacity_conservation demoSys).2.1 "S1" "CSE" OPEN,
   (capacity_conservation demoSys).2.2 "CSE" OPEN 1 "CSE" OPEN⟩

/-- A move leaves every other position untouched. -/
theorem moveStudent_getElem?_ne (sys : AdmissionSystem) (i : Nat) (b t : String)
    (j : Nat) (hne : i ≠ j) :
    (moveStudent sys i b t).students[j]? = sys.students[j]? := by
  cases hs : sys.students[i]? with
  | none => unfold moveStudent; rw [hs]
  | some s =>
    rw [moveStudent_students sys i b t s hs, List.getElem?_set, if_neg hne]

/-- A move replaces the chosen position by the granted record. -/
theorem moveStudent_getElem?_self (sys : AdmissionSystem) (i : Nat) (b t : String)
    (s : Student) (hs : sys.students[i]? = some s) :
    (moveStudent sys i b t).students[i]? = some (grantSeat s b t) := by
  obtain ⟨hi, -⟩ := List.getElem?_eq_some.mp hs
  rw [moveStudent_students sys i b t s hs, List.getElem?_set, if_pos rfl,
    if_pos hi]

/-- A move keeps the number of students. -/
theorem moveStudent_length (sys : AdmissionSystem) (i : Nat) (b t : String) :
    (moveStudent sys i b t).students.length = sys.students.length := by
  cases hs : sys.students[i]? with
  | none => unfold moveStudent; rw [hs]
  | some s => rw [moveStudent_students sys i b t s hs, List.length_set]

/-- Pointwise description of the seat table after a move: the new pair
is decremented and the freed pair (when the mover held one) is
incremented. -/
theorem moveStudent_seats (sys : AdmissionSystem) (i : Nat) (b t : String)
    (s : Student) (hs : sys.students[i]? = some s) (x y : String) :
    getSeat (moveStudent sys i b t).seats x y =
      (if x = b ∧ y = t then getSeat sys.seats b t - 1 else getSeat sys.seats x y) +
      (match s.assigned_branch, s.assigned_seat_type with
       | some pb, some pt => if x = pb ∧ y = pt then 1 else 0
       | _, _ => 0) := by
  unfold moveStudent allocateAt
  rw [hs]
  dsimp only
  cases hpb : s.assigned_branch with
  | none =>
    dsimp only
    simp only [getSeat, setSeat]
    split_ifs <;> omega
  | some pb =>
    cases hpt : s.assigned_seat_type with
    | none =>
      dsimp only
      simp only [getSeat, setSeat]
      split_ifs <;> omega
    | some pt =>
      dsimp only
      simp only [getSeat, setSeat]
      by_cases h1 : x = pb ∧ y = pt
      · rw [if_pos h1, if_pos h1]
        by_cases h2 : x = b ∧ y = t
        · have h3 : pb = b ∧ pt = t :=
            ⟨h1.1.symm.trans h2.1, h1.2.symm.trans h2.2⟩
          rw [if_pos h2, if_pos h3]
        · have h3 : ¬ (pb = b ∧ pt = t) :=
            fun hc => h2 ⟨h1.1.trans hc.1, h1.2.trans hc.2⟩
          rw [if_neg h2, if_neg h3, h1.1, h1.2]
      · rw [if_neg h1, if_neg h1, add_zero]

/-- The freed pair queued by a move is the previously held all-some
pair. -/
theorem prevVacancy_eq_some (sys : AdmissionSystem) (i : Nat) (s : Student)
    (pb pt : String) (hs : sys.students[i]? = some s)
    (hb : s.assigned_branch = some pb) (ht : s.assigned_seat_type = some pt) :
    prevVacancy sys i = [(pb, pt)] := by
  unfold prevVacancy
  rw [hs]
  dsimp only
  rw [hb, ht]

/-- No pair is queued when the mover held no branch. -/
theorem prevVacancy_eq_none_branch (sys : AdmissionSystem) (i : Nat) (s : Student)
    (hs : sys.students[i]? = some s) (hb : s.assigned_branch = none) :
    prevVacancy sys i = [] := by
  unfold prevVacancy
  rw [hs]
  dsimp only
  rw [hb]

/-- No pair is queued when the mover held no seat type. -/
theorem prevVacancy_eq_none_type (sys : AdmissionSystem) (i : Nat) (s : Student)
    (hs : sys.students[i]? = some s) (ht : s.assigned_seat_type = none) :
    prevVacancy sys i = [] := by
  unfold prevVacancy
  rw [hs]
  dsimp only
  rw [ht]
  cases s.assigned_branch <;> rfl

/-- Wants only shrink at a legitimately granted student: any pair the
granted record still wants, the original record already wanted. -/
theorem wantsSeat_grantSeat_mono (s : Student) (b t x y : String)
    (hsb : s.prefers b) : wantsSeat (grantSeat s b t) x y → wantsSeat s x y := by
  rintro ⟨hmem, helig, hpref⟩
  have hmem' : x ∈ s.preferences := hmem
  have helig' : eligible_for s y := by
    rcases helig with h | h
    · exact Or.inl h
    · exact Or.inr h
  refine ⟨hmem', helig', hmem', ?_⟩
  obtain ⟨-, hlt⟩ := hpref
  rcases hlt with hnone | hlt
  · cases hnone
  · have hlt' : (grantSeat s b t).pref_index x < s.pref_index b := by
      simpa [grantSeat] using hlt
    have hxx : (grantSeat s b t).pref_index x = s.pref_index x := rfl
    rw [hxx] at hlt'
    obtain ⟨-, hp2⟩ := hsb
    rcases hp2 with hn | hp2
    · exact Or.inl hn
    · exact Or.inr (lt_trans hlt' hp2)

/-- The sid at every position is unchanged by a move. -/
theorem moveStudent_sid_map (sys : AdmissionSystem) (i : Nat) (b t : String) :
    (moveStudent sys i b t).students.map Student.sid =
      sys.students.map Student.sid := by
  cases hs : sys.students[i]? with
  | none => unfold moveStudent; rw [hs]
  | some s =>
    obtain ⟨hi, hgs⟩ := List.getElem?_eq_some.mp hs
    rw [moveStudent_students sys i b t s hs]
    apply List.ext_getElem?
    intro j
    rw [List.getElem?_map, List.getElem?_map, List.getElem?_set]
    by_cases hij : i = j
    · subst hij
      rw [if_pos rfl, if_pos hi, List.getElem?_eq_getElem hi, hgs]
      rfl
    · rw [if_neg hij]

/-- The sid at every position is unchanged by the cascade loop. -/
theorem upgradeGo_sid_map : ∀ (fuel : Nat) (sys : AdmissionSystem)
    (q : List (String × String)),
    (upgradeGo fuel sys q).students.map Student.sid =
      sys.students.map Student.sid
  | 0, _, _ => rfl
  | _ + 1, _, [] => rfl
  | fuel + 1, sys, (b, t) :: rest => by
    simp only [upgradeGo]
    by_cases hcap : getSeat sys.seats b t > 0
    · rw [if_pos hcap]
      cases hbest : best_candidate_for sys b t with
      | none => exact upgradeGo_sid_map fuel sys rest
      | some i =>
        rw [upgradeGo_sid_map fuel _ _]
        exact moveStudent_sid_map sys i b t
    · rw [if_neg hcap]
      exact upgradeGo_sid_map fuel sys rest

/-- `findIdx?` for a sid search depends only on the sid map. -/
theorem findIdx?_sid_congr (sid : String) :
    ∀ (l₁ l₂ : List Student) (i0 : Nat),
      l₁.map Student.sid = l₂.map Student.sid →
      l₁.findIdx? (fun s => s.sid == sid) i0 =
        l₂.findIdx? (fun s => s.sid == sid) i0 := by
  intro l₁
  induction l₁ with
  | nil =>
    intro l₂ i0 h
    cases l₂ with
    | nil => rfl
    | cons b l₂ => cases h
  | cons a l₁ ih =>
    intro l₂ i0 h
    cases l₂ with
    | nil => cases h
    | cons b l₂ =>
      simp only [List.map] at h
      injection h with h1 h2
      rw [List.findIdx?_cons, List.findIdx?_cons, h1, ih l₂ (i0 + 1) h2]

/-- Each student's measure contributes to the total measure. -/
theorem measureOf_le_totalMeasure (sys : AdmissionSystem) (i : Nat) (s : Student)
    (hs : sys.students[i]? = some s) : measureOf s ≤ totalMeasure sys := by
  obtain ⟨hi, hgs⟩ := List.getElem?_eq_some.mp hs
  unfold totalMeasure
  have hmem : measureOf s ∈ sys.students.map measureOf := by
    exact List.mem_map_of_mem measureOf (hgs ▸ List.getElem_mem hi)
  exact List.single_le_sum (fun x _ => Nat.zero_le x) _ hmem

/-- Re-granting a cleared record its recorded seat restores the record
exactly. -/
theorem grantSeat_clearAssignment (s : Student) (b t : String)
    (hb : s.assigned_branch = some b) (ht : s.assigned_seat_type = some t)
    (hk : s.assigned_pref_index = some (s.pref_index b)) :
    grantSeat (clearAssignment s) b t = s := by
  have hpi : (clearAssignment s).pref_index b = s.pref_index b := rfl
  cases s
  simp only [grantSeat, clearAssignment, Student.pref_index] at hb ht hk ⊢
  simp_all

/-- Overwriting an overwrite keeps only the second value. -/
theorem setSeat_setSeat (f : String → String → Int) (b t : String) (v v' : Int) :
    setSeat (setSeat f b t v) b t v' = setSeat f b t v' := by
  funext x y
  unfold setSeat
  split_ifs <;> rfl

/-- Writing back the current value is the identity. -/
theorem setSeat_self (f : String → String → Int) (b t : String) :
    setSeat f b t (f b t) = f := by
  funext x y
  unfold setSeat
  split_ifs with h
  · rw [h.1, h.2]
  · rfl

/-- Position-indexed form of the best-candidate characterization. -/
theorem best_candidate_facts (sys : AdmissionSystem) (b t : String) (jm : Nat)
    (h : best_candidate_for sys b t = some jm) :
    ∃ sjm, sys.students[jm]? = some sjm ∧ wantsSeat sjm b t ∧
      (∀ j sj, j < jm → sys.students[j]? = some sj → wantsSeat sj b t →
        keyLt sjm.key sj.key) ∧
      (∀ j sj, jm < j → sys.students[j]? = some sj → wantsSeat sj b t →
        ¬ keyLt sj.key sjm.key) := by
  obtain ⟨hj, hw, hbef, haft⟩ := best_candidate_for_some_spec sys b t jm h
  refine ⟨sys.students.get ⟨jm, hj⟩, ?_, hw, ?_, ?_⟩
  · rw [List.getElem?_eq_getElem hj]
    rfl
  · intro j sj hlt hsj hwsj
    obtain ⟨hjl, hgetj⟩ := List.getElem?_eq_some.mp hsj
    have : sys.students.get ⟨j, hjl⟩ = sj := by
      rw [List.get_eq_getElem, hgetj]
    exact this ▸ hbef j hjl hlt (this ▸ hwsj)
  · intro j sj hlt hsj hwsj
    obtain ⟨hjl, hgetj⟩ := List.getElem?_eq_some.mp hsj
    have : sys.students.get ⟨j, hjl⟩ = sj := by
      rw [List.get_eq_getElem, hgetj]
    exact this ▸ haft j hjl hlt (this ▸ hwsj)

/-- Conversely, position-indexed dominance facts determine the scan
result. -/
theorem best_candidate_of_facts (sys : AdmissionSystem) (b t : String) (i : Nat)
    (si : Student) (hsi : sys.students[i]? = some si) (hw : wantsSeat si b t)
    (hbef : ∀ j sj, j < i → sys.students[j]? = some sj → wantsSeat sj b t →
      keyLt si.key sj.key)
    (haft : ∀ j sj, i < j → sys.students[j]? = some sj → wantsSeat sj b t →
      ¬ keyLt sj.key si.key) :
    best_candidate_for sys b t = some i := by
  obtain ⟨hi, hgs⟩ := List.getElem?_eq_some.mp hsi
  apply best_candidate_for_of_bestAt
  have hget : sys.students.get ⟨i, hi⟩ = si := by
    rw [List.get_eq_getElem, hgs]
  refine ⟨hi, hget ▸ hw, ?_, ?_⟩
  · intro m hm hlt hwm
    have hsm : sys.students[m]? = some (sys.students.get ⟨m, hm⟩) := by
      rw [List.getElem?_eq_getElem hm]
      rfl
    have := hbef m _ hlt hsm hwm
    rw [hget]
    exact this
  · intro m hm hlt hwm
    have hsm : sys.students[m]? = some (sys.students.get ⟨m, hm⟩) := by
      rw [List.getElem?_eq_getElem hm]
      rfl
    have := haft m _ hlt hsm hwm
    rw [hget]
    exact this

/-- No eligible wanting candidate is left for the pair whenever it
still has capacity. -/
def NBpair (sys : AdmissionSystem) (b t : String) : Prop :=
  getSeat sys.seats b t > 0 → ∀ s ∈ sys.students, ¬ wantsSeat s b t

/-- The key `k` (of the student at position `i`) strictly dominates
every wanting student before `i` and is not beaten by any wanting
student after `i`. -/
def DominatesKey (sys : AdmissionSystem) (i : Nat) (k : Key) (b t : String) : Prop :=
  (∀ j sj, j < i → sys.students[j]? = some sj → wantsSeat sj b t →
    keyLt k sj.key) ∧
  (∀ j sj, i < j → sys.students[j]? = some sj → wantsSeat sj b t →
    ¬ keyLt sj.key k)

/-- The state of a student who received pair `(b, t)` during the
cascade: the granted fields, eligibility, dominance of the student's
key for the pair, the pair either satisfied or still queued, and a
non-negative count for it. -/
def GrantedState (sys : AdmissionSystem) (q : List (String × String)) (i : Nat)
    (b t : String) : Prop :=
  ∃ si, sys.students[i]? = some si ∧ si.assigned_branch = some b ∧
    si.assigned_seat_type = some t ∧
    si.assigned_pref_index = some (si.pref_index b) ∧
    b ∈ si.preferences ∧ eligible_for si t ∧
    DominatesKey sys i si.key b t ∧
    (NBpair sys b t ∨ (b, t) ∈ q) ∧
    0 ≤ getSeat sys.seats b t

/-- Through the cascade, the tracked student is either still untouched
or in a granted state for some pair. -/
def TrackInv (sys : AdmissionSystem) (q : List (String × String)) (i : Nat)
    (s₀ : Student) : Prop :=
  sys.students[i]? = some s₀ ∨ ∃ b t, GrantedState sys q i b t

/-- Core tracking lemma: with sufficient fuel, the cascade leaves the
tracked student untouched or in a granted state whose pair needs no
further filling. -/
theorem upgradeGo_track : ∀ (fuel : Nat) (sys : AdmissionSystem)
    (q : List (String × String)) (i : Nat) (s₀ : Student),
    upgradeFuel sys q ≤ fuel → TrackInv sys q i s₀ →
    TrackInv (upgradeGo fuel sys q) [] i s₀ := by
  intro fuel
  induction fuel with
  | zero =>
    intro sys q i s₀ hf ht
    have hq : q = [] := by
      match q with
      | [] => rfl
      | _ :: _ => simp [upgradeFuel] at hf
    subst hq
    exact ht
  | succ fuel ih =>
    intro sys q i s₀ hf ht
    match q with
    | [] => exact ht
    | (b, t) :: rest =>
      have hfr : upgradeFuel sys rest ≤ fuel := by
        simp only [upgradeFuel, List.length_cons] at hf ⊢
        omega
      simp only [upgradeGo]
      by_cases hcap : getSeat sys.seats b t > 0
      · rw [if_pos hcap]
        cases hbest : best_candidate_for sys b t with
        | none =>
          refine ih sys rest i s₀ hfr ?_
          rcases ht with hl | ⟨b₂, t₂, si, hsi, h1, h2, h3, h4, h5, hdom, hcq, hnn⟩
          · exact Or.inl hl
          · refine Or.inr ⟨b₂, t₂, si, hsi, h1, h2, h3, h4, h5, hdom, ?_, hnn⟩
            rcases hcq with hnb | hmem
            · exact Or.inl hnb
            · rcases List.mem_cons.mp hmem with heq | hmem'
              · refine Or.inl ?_
                obtain ⟨rfl, rfl⟩ : b₂ = b ∧ t₂ = t := by
                  injection heq with e1 e2; exact ⟨e1, e2⟩
                intro hcap2
                exact fun s hs => best_candidate_for_none_spec _ _ _ hbest s hs
              · exact Or.inr hmem'
        | some jm =>
          obtain ⟨sjm, hsjm, hwjm, hbefm, haftm⟩ :=
            best_candidate_facts sys b t jm hbest
          have hmlt := totalMeasure_move_lt sys b t jm hbest
          have hplen := prevVacancy_length sys jm
          have hf' : upgradeFuel (moveStudent sys jm b t)
              ((b, t) :: (rest ++ prevVacancy sys jm)) ≤ fuel := by
            simp only [upgradeFuel, List.length_cons, List.length_append] at hf ⊢
            omega
          refine ih _ _ i s₀ hf' ?_
          have hgrant := moveStudent_getElem?_self sys jm b t sjm hsjm
          have hne : ∀ j, jm ≠ j →
              (moveStudent sys jm b t).students[j]? = sys.students[j]? :=
            fun j hj => moveStudent_getElem?_ne sys jm b t j hj
          have hkey : (grantSeat sjm b t).key = sjm.key := rfl
          have hshrink : ∀ x y, wantsSeat (grantSeat sjm b t) x y →
              wantsSeat sjm x y :=
            fun x y => wantsSeat_grantSeat_mono sjm b t x y hwjm.2.2
          have hseats := moveStudent_seats sys jm b t sjm hsjm
          by_cases hji : jm = i
          · subst hji
            -- the tracked student is the mover: enter the granted state
            refine Or.inr ⟨b, t, grantSeat sjm b t, hgrant, rfl, rfl, rfl,
              hwjm.1, ?_, ?_, ?_, ?_⟩
            · rcases hwjm.2.1 with h | h
              · exact Or.inl h
              · exact Or.inr h
            · constructor
              · intro j sj hlt hsj hwsj
                rw [hkey]
                exact hbefm j sj hlt ((hne j (by omega)) ▸ hsj) hwsj
              · intro j sj hlt hsj hwsj
                rw [hkey]
                exact haftm j sj hlt ((hne j (by omega)) ▸ hsj) hwsj
            · exact Or.inr (List.mem_cons_self _ _)
            · rw [hseats b t]
              simp only [eq_self_iff_true, and_self, if_true]
              cases hpb2 : sjm.assigned_branch <;>
                cases hpt2 : sjm.assigned_seat_type <;> dsimp only
              all_goals omega
          · rcases ht with hl | ⟨b₂, t₂, si, hsi, h1, h2, h3, h4, h5, hdom, hcq, hnn⟩
            · exact Or.inl ((hne i hji) ▸ hl)
            · refine Or.inr ⟨b₂, t₂, si, (hne i hji) ▸ hsi, h1, h2, h3, h4, h5,
                ?_, ?_, ?_⟩
              · constructor
                · intro j sj hlt hsj hwsj
                  by_cases hjjm : j = jm
                  · subst hjjm
                    rw [hgrant] at hsj
                    injection hsj with hsj
                    subst hsj
                    rw [hkey]
                    exact hdom.1 j sjm hlt hsjm (hshrink b₂ t₂ hwsj)
                  · exact hdom.1 j sj hlt ((hne j (fun h => hjjm h.symm)) ▸ hsj) hwsj
                · intro j sj hlt hsj hwsj
                  by_cases hjjm : j = jm
                  · subst hjjm
                    rw [hgrant] at hsj
                    injection hsj with hsj
                    subst hsj
                    rw [hkey]
                    exact hdom.2 j sjm hlt hsjm (hshrink b₂ t₂ hwsj)
                  · exact hdom.2 j sj hlt ((hne j (fun h => hjjm h.symm)) ▸ hsj) hwsj
              · rcases hcq with hnb | hmem
                · -- previously satisfied pair: either it is the freed pair
                  -- (now queued) or it stays satisfied
                  cases hpb : sjm.assigned_branch with
                  | some pb =>
                    cases hpt : sjm.assigned_seat_type with
                    | some pt =>
                      by_cases hp2 : b₂ = pb ∧ t₂ = pt
                      · obtain ⟨rfl, rfl⟩ := hp2
                        refine Or.inr ?_
                        rw [prevVacancy_eq_some sys jm sjm b₂ t₂ hsjm hpb hpt]
                        exact List.mem_cons_of_mem _
                          (List.mem_append_right rest (List.mem_singleton.mpr rfl))
                      · refine Or.inl ?_
                        intro hcap2 s' hs'
                        have hcs : getSeat sys.seats b₂ t₂ > 0 := by
                          have := hseats b₂ t₂
                          rw [hpb, hpt] at this
                          dsimp only at this
                          have hne2 : ¬ (b₂ = pb ∧ t₂ = pt) := hp2
                          rw [if_neg hne2, add_zero] at this
                          by_cases h2bt : b₂ = b ∧ t₂ = t
                          · obtain ⟨rfl, rfl⟩ := h2bt
                            rw [if_pos ⟨rfl, rfl⟩] at this
                            omega
                          · rw [if_neg h2bt] at this
                            omega
                        have hmem' := List.mem_or_eq_of_mem_set
                          ((moveStudent_students sys jm b t sjm hsjm) ▸ hs')
                        rcases hmem' with hold | rfl
                        · exact hnb hcs s' hold
                        · intro hws
                          exact hnb hcs sjm (List.getElem?_mem hsjm)
                            (hshrink b₂ t₂ hws)
                    | none =>
                      refine Or.inl ?_
                      intro hcap2 s' hs'
                      have hcs : getSeat sys.seats b₂ t₂ > 0 := by
                        have := hseats b₂ t₂
                        rw [hpb, hpt] at this
                        dsimp only at this
                        rw [add_zero] at this
                        by_cases h2bt : b₂ = b ∧ t₂ = t
                        · obtain ⟨rfl, rfl⟩ := h2bt
                          rw [if_pos ⟨rfl, rfl⟩] at this
                          omega
                        · rw [if_neg h2bt] at this
                          omega
                      have hmem' := List.mem_or_eq_of_mem_set
                        ((moveStudent_students sys jm b t sjm hsjm) ▸ hs')
                      rcases hmem' with hold | rfl
                      · exact hnb hcs s' hold
                      · intro hws
                        exact hnb hcs sjm (List.getElem?_mem hsjm)
                          (hshrink b₂ t₂ hws)
                  | none =>
                    refine Or.inl ?_
                    intro hcap2 s' hs'
                    have hcs : getSeat sys.seats b₂ t₂ > 0 := by
                      have := hseats b₂ t₂
                      rw [hpb] at this
                      dsimp only at this
                      rw [add_zero] at this
                      by_cases h2bt : b₂ = b ∧ t₂ = t
                      · obtain ⟨rfl, rfl⟩ := h2bt
                        rw [if_pos ⟨rfl, rfl⟩] at this
                        omega
                      · rw [if_neg h2bt] at this
                        omega
                    have hmem' := List.mem_or_eq_of_mem_set
                      ((moveStudent_students sys jm b t sjm hsjm) ▸ hs')
                    rcases hmem' with hold | rfl
                    · exact hnb hcs s' hold
                    · intro hws
                      exact hnb hcs sjm (List.getElem?_mem hsjm)
                        (hshrink b₂ t₂ hws)
                · refine Or.inr ?_
                  rcases List.mem_cons.mp hmem with heq | hmem'
                  · exact heq ▸ List.mem_cons_self _ _
                  · exact List.mem_cons_of_mem _ (List.mem_append_left _ hmem')
              · rw [hseats b₂ t₂]
                by_cases h2bt : b₂ = b ∧ t₂ = t
                · obtain ⟨rfl, rfl⟩ := h2bt
                  simp only [eq_self_iff_true, and_self, if_true]
                  cases hpb2 : sjm.assigned_branch <;>
                    cases hpt2 : sjm.assigned_seat_type <;> dsimp only
                  all_goals omega
                · rw [if_neg h2bt]
                  cases hpb2 : sjm.assigned_branch <;>
                    cases hpt2 : sjm.assigned_seat_type <;> dsimp only
                  all_goals omega
      · rw [if_neg hcap]
        refine ih sys rest i s₀ hfr ?_
        rcases ht with hl | ⟨b₂, t₂, si, hsi, h1, h2, h3, h4, h5, hdom, hcq, hnn⟩
        · exact Or.inl hl
        · refine Or.inr ⟨b₂, t₂, si, hsi, h1, h2, h3, h4, h5, hdom, ?_, hnn⟩
          rcases hcq with hnb | hmem
          · exact Or.inl hnb
          · rcases List.mem_cons.mp hmem with heq | hmem'
            · refine Or.inl ?_
              obtain ⟨rfl, rfl⟩ : b₂ = b ∧ t₂ = t := by
                injection heq with e1 e2; exact ⟨e1, e2⟩
              intro hcap2
              exact absurd hcap2 hcap
            · exact Or.inr hmem'

/-- C10 witness: consistency after each operation on the reference
configuration, and the in-preferences consequence for it. -/
theorem consistency_invariant_witness :
    ConsistentInv (initial_allocation demoSys) ∧
    ConsistentInv (withdraw demoSys "S1") ∧
    ConsistentInv (add_capacity demoSys "CSE" OPEN 1) :=
  ⟨(consistency_invariant demoSys (by decide)).1,
   (consistency_invariant demoSys (by decide)).2.1 "S1",
   (consistency_invariant demoSys (by decide)).2.2.1 "CSE" OPEN 1⟩

/-- One loop iteration that performs a move: capacity remains and a best
candidate exists, so the pair is retried after the move with the freed
pair appended. -/
theorem upgradeGo_step_move (fuel : Nat) (sys : AdmissionSystem) (b t : String)
    (rest : List (String × String)) (i : Nat)
    (hcap : getSeat sys.seats b t > 0)
    (hbc : best_candidate_for sys b t = some i) :
    upgradeGo (fuel + 1) sys ((b, t) :: rest) =
      upgradeGo fuel (moveStudent sys i b t) ((b, t) :: (rest ++ prevVacancy sys i)) := by
  simp only [upgradeGo]
  rw [if_pos hcap, hbc]

/-- One loop iteration that discards the front pair: no capacity remains
or no candidate wants it. -/
theorem upgradeGo_step_skip (fuel : Nat) (sys : AdmissionSystem) (b t : String)
    (rest : List (String × String))
    (h : ¬ getSeat sys.seats b t > 0 ∨ best_candidate_for sys b t = none) :
    upgradeGo (fuel + 1) sys ((b, t) :: rest) = upgradeGo fuel sys rest := by
  simp only [upgradeGo]
  rcases h with h | h
  · rw [if_neg h]
  · by_cases hcap : getSeat sys.seats b t > 0
    · rw [if_pos hcap, h]
    · rw [if_neg hcap]

/-- Clearing a student's assignment changes no sid. -/
theorem sid_map_set_clear (l : List Student) (i : Nat) (s : Student)
    (hs : l[i]? = some s) :
    (l.set i (clearAssignment s)).map Student.sid = l.map Student.sid := by
  obtain ⟨hi, hgs⟩ := List.getElem?_eq_some.mp hs
  apply List.ext_getElem?
  intro j
  rw [List.getElem?_map, List.getElem?_map, List.getElem?_set]
  by_cases hij : i = j
  · subst hij
    rw [if_pos rfl, if_pos hi, List.getElem?_eq_getElem hi, hgs]
    rfl
  · rw [if_neg hij]

/-- A sid that occurs nowhere is never found. -/
theorem findIdx?_sid_eq_none (sid : String) :
    ∀ (l : List Student) (i0 : Nat), (∀ s ∈ l, s.sid ≠ sid) →
      l.findIdx? (fun st => st.sid == sid) i0 = none := by
  intro l
  induction l with
  | nil => intro i0 h; rfl
  | cons a l ih =>
    intro i0 h
    rw [List.findIdx?_cons]
    rw [if_neg (fun hc => h a (List.mem_cons_self a l) (eq_of_beq hc))]
    exact ih (i0 + 1) (fun s hs => h s (List.mem_cons_of_mem a hs))

/-- Moving a freshly cleared student back into the freed pair restores
the original state exactly: the seat count returns and the record is
re-granted identically. -/
theorem moveStudent_retake (T : AdmissionSystem) (j : Nat) (sj : Student) (b t : String)
    (hsj : T.students[j]? = some sj)
    (hb : sj.assigned_branch = some b) (ht : sj.assigned_seat_type = some t)
    (hpi : sj.assigned_pref_index = some (sj.pref_index b)) :
    moveStudent
      { seats := setSeat T.seats b t (getSeat T.seats b t + 1),
        students := T.students.set j (clearAssignment sj) } j b t = T := by
  obtain ⟨hj, hgj⟩ := List.getElem?_eq_some.mp hsj
  have hS₁j : (T.students.set j (clearAssignment sj))[j]? = some (clearAssignment sj) :=
    List.getElem?_set_self hj
  obtain ⟨Tse, Tst⟩ := T
  dsimp only at hsj hgj hS₁j ⊢
  unfold moveStudent
  dsimp only
  rw [hS₁j]
  dsimp only
  rw [show (clearAssignment sj).assigned_branch = none from rfl]
  rw [show (clearAssignment sj).assigned_seat_type = none from rfl]
  unfold allocateAt
  dsimp only
  rw [hS₁j]
  dsimp only
  congr 1
  · funext x y
    simp only [setSeat, getSeat]
    by_cases hxy : x = b ∧ y = t
    · obtain ⟨rfl, rfl⟩ := hxy
      simp only [eq_self_iff_true, and_self, if_true]
      omega
    · rw [if_neg hxy, if_neg hxy]
  · rw [grantSeat_clearAssignment sj b t hb ht hpi]
    rw [List.set_set]
    rw [show sj = Tst.get ⟨j, hj⟩ from by rw [List.get_eq_getElem]; exact hgj.symm]
    exact list_set_self Tst j hj

/-- After freeing and clearing a dominant assigned student, that student
is again the best candidate for the freed pair. -/
theorem best_candidate_retake (T : AdmissionSystem) (j : Nat) (sj : Student) (b t : String)
    (hsj : T.students[j]? = some sj)
    (hbp : b ∈ sj.preferences) (hel : eligible_for sj t)
    (hdom : DominatesKey T j sj.key b t) :
    best_candidate_for
      { seats := setSeat T.seats b t (getSeat T.seats b t + 1),
        students := T.students.set j (clearAssignment sj) } b t = some j := by
  obtain ⟨hj, hgj⟩ := List.getElem?_eq_some.mp hsj
  apply best_candidate_of_facts _ b t j (clearAssignment sj)
  · exact List.getElem?_set_self hj
  · exact ⟨hbp, hel, hbp, Or.inl rfl⟩
  · intro j' sj' hlt hsj' hw
    have hne : j ≠ j' := Nat.ne_of_gt hlt
    have hsj'' : (T.students.set j (clearAssignment sj))[j']? = some sj' := hsj'
    rw [List.getElem?_set_ne hne] at hsj''
    exact hdom.1 j' sj' hlt hsj'' hw
  · intro j' sj' hlt hsj' hw
    have hne : j ≠ j' := Nat.ne_of_lt hlt
    have hsj'' : (T.students.set j (clearAssignment sj))[j']? = some sj' := hsj'
    rw [List.getElem?_set_ne hne] at hsj''
    exact hdom.2 j' sj' hlt hsj'' hw

/-- Retake lemma: withdrawing a student whose key dominates their pair
and whose pair has no other wanting taker cascades straight back to the
original state — the cleared student is immediately re-granted the same
seat and the loop then stops. -/
theorem retake_lemma (T : AdmissionSystem) (j : Nat) (sj : Student) (b t : String)
    (hsj : T.students[j]? = some sj)
    (hb : sj.assigned_branch = some b) (ht : sj.assigned_seat_type = some t)
    (hpi : sj.assigned_pref_index = some (sj.pref_index b))
    (hbp : b ∈ sj.preferences) (hel : eligible_for sj t)
    (hdom : DominatesKey T j sj.key b t)
    (hnb : NBpair T b t) (hnn : 0 ≤ getSeat T.seats b t) :
    ∀ fuel, 2 ≤ fuel →
      upgradeGo fuel
        { seats := setSeat T.seats b t (getSeat T.seats b t + 1),
          students := T.students.set j (clearAssignment sj) } [(b, t)] = T := by
  intro fuel hfuel
  obtain ⟨n, rfl⟩ : ∃ n, fuel = n + 1 + 1 := ⟨fuel - 2, by omega⟩
  obtain ⟨hj, hgj⟩ := List.getElem?_eq_some.mp hsj
  have hS₁j : (T.students.set j (clearAssignment sj))[j]? = some (clearAssignment sj) :=
    List.getElem?_set_self hj
  have hcap1 : getSeat (setSeat T.seats b t (getSeat T.seats b t + 1)) b t > 0 := by
    simp only [getSeat, setSeat] at hnn ⊢
    simp only [eq_self_iff_true, and_self, if_true]
    omega
  rw [upgradeGo_step_move (n + 1) _ b t [] j hcap1
    (best_candidate_retake T j sj b t hsj hbp hel hdom)]
  rw [moveStudent_retake T j sj b t hsj hb ht hpi]
  rw [prevVacancy_eq_none_branch _ j (clearAssignment sj) hS₁j rfl]
  show upgradeGo (n + 1) T [(b, t)] = T
  by_cases hcap2 : getSeat T.seats b t > 0
  · rw [upgradeGo_step_skip n T b t []
      (Or.inr (best_candidate_for_of_no_wanting T b t (hnb hcap2)))]
    exact upgradeGo_nil n T
  · rw [upgradeGo_step_skip n T b t [] (Or.inl hcap2)]
    exact upgradeGo_nil n T

/-- Withdraw is a no-op on a state where the tracked candidate (the one
the sid search finds) is either cleared or in a granted state whose pair
needs no further filling. -/
theorem withdraw_noop_of_TrackInv (T : AdmissionSystem) (sid : String) (i : Nat)
    (s₀ : Student)
    (hfind : T.students.findIdx? (fun st => st.sid == sid) = some i)
    (htr : TrackInv T [] i s₀) (hb0 : s₀.assigned_branch = none) :
    withdraw T sid = T := by
  rcases withdraw_cases T sid with h | ⟨i', b', t', hf', hb', ht', heq'⟩
  · exact h
  · rw [hfind] at hf'
    injection hf' with hii
    subst hii
    rcases htr with hl | ⟨b₂, t₂, si, hsi, h1, h2, h3, h4, h5, hdom, hcq, hnn⟩
    · have hget : T.students.getD i default = s₀ := by
        rw [List.getD_eq_getElem?_getD, hl]
        rfl
      rw [hget, hb0] at hb'
      exact Option.noConfusion hb'
    · have hget : T.students.getD i default = si := by
        rw [List.getD_eq_getElem?_getD, hsi]
        rfl
      rw [hget] at hb' ht' heq'
      rw [h1] at hb'
      injection hb' with eb
      subst eb
      rw [h2] at ht'
      injection ht' with et
      subst et
      have hnb : NBpair T b₂ t₂ := by
        rcases hcq with h | h
        · exact h
        · exact absurd h (List.not_mem_nil _)
      have hi2 : i < T.students.length := (List.getElem?_eq_some.mp hsi).1
      have hS₁i : (T.students.set i (clearAssignment si))[i]? = some (clearAssignment si) :=
        List.getElem?_set_self hi2
      rw [heq']
      unfold upgrade_and_fill
      refine retake_lemma T i si b₂ t₂ hsi h1 h2 h3 h4 h5 hdom hnb hnn _ ?_
      have hm := measureOf_le_totalMeasure
        { seats := setSeat T.seats b₂ t₂ (getSeat T.seats b₂ t₂ + 1),
          students := T.students.set i (clearAssignment si) } i (clearAssignment si) hS₁i
      have hme : measureOf (clearAssignment si) = si.preferences.length + 1 := rfl
      unfold upgradeFuel
      simp only [List.length_cons, List.length_nil]
      omega

/-- Withdrawing an assigned candidate and then withdrawing the same sid
again is a no-op on the second call: the tracking invariant holds after
the first cascade, so the found candidate is either still cleared or
re-seated with nobody else wanting the pair. -/
theorem withdraw_upgrade_noop (sys : AdmissionSystem) (sid : String) (i : Nat)
    (s₀ : Student) (b t : String)
    (hs₀e : sys.students[i]? = some s₀)
    (hf : sys.students.findIdx? (fun st => st.sid == sid) = some i) :
    withdraw
      (upgrade_and_fill
        { seats := setSeat sys.seats b t (getSeat sys.seats b t + 1),
          students := sys.students.set i (clearAssignment s₀) } b t) sid
      = upgrade_and_fill
        { seats := setSeat sys.seats b t (getSeat sys.seats b t + 1),
          students := sys.students.set i (clearAssignment s₀) } b t := by
  have hi : i < sys.students.length := (List.getElem?_eq_some.mp hs₀e).1
  refine withdraw_noop_of_TrackInv _ sid i (clearAssignment s₀) ?_
    (by
      unfold upgrade_and_fill
      exact upgradeGo_track _ _ _ i (clearAssignment s₀) (le_refl _)
        (Or.inl (List.getElem?_set_self hi)))
    rfl
  rw [findIdx?_sid_congr sid _ sys.students 0
    (by
      unfold upgrade_and_fill
      rw [upgradeGo_sid_map]
      exact sid_map_set_clear sys.students i s₀ hs₀e)]
  exact hf

/-- C8: `Withdraw` is idempotent — withdrawing the same id twice in a
row equals withdrawing it once, for every state; and `Withdraw` on an id
absent from the candidate list, or on an id whose found candidate holds
no seat, leaves the state unchanged. -/
theorem withdraw_idempotent :
    (∀ (sys : AdmissionSystem) (sid : String),
      withdraw (withdraw sys sid) sid = withdraw sys sid) ∧
    (∀ (sys : AdmissionSystem) (sid : String),
      (∀ s ∈ sys.students, s.sid ≠ sid) → withdraw sys sid = sys) ∧
    (∀ (sys : AdmissionSystem) (sid : String) (i : Nat),
      sys.students.findIdx? (fun st => st.sid == sid) = some i →
      (sys.students.getD i default).assigned_branch = none →
      withdraw sys sid = sys) := by
  refine ⟨?_, ?_, ?_⟩
  · intro sys sid
    rcases withdraw_cases sys sid with heq | ⟨i, b, t, hf, hb, ht, heq⟩
    · rw [heq]
      exact heq
    · obtain ⟨hi, hpi, -⟩ := findIdx?_some_spec (fun st => st.sid == sid) sys.students i hf
      have hs₀e : sys.students[i]? = some (sys.students.getD i default) := by
        rw [List.getD_eq_getElem?_getD, List.getElem?_eq_getElem hi]
        rfl
      rw [heq]
      exact withdraw_upgrade_noop sys sid i (sys.students.getD i default) b t hs₀e hf
  · intro sys sid h
    unfold withdraw
    rw [findIdx?_sid_eq_none sid sys.students 0 h]
  · intro sys sid i hf hb0
    unfold withdraw
    rw [hf]
    dsimp only
    rw [hb0]

/-- C8 witness: idempotence on the allocated reference state, and the
two no-op cases on the reference configuration. -/
theorem withdraw_idempotent_witness :
    withdraw (withdraw (initial_allocation demoSys) "S1") "S1"
      = withdraw (initial_allocation demoSys) "S1" ∧
    ((∀ s ∈ demoSys.students, s.sid ≠ "ZZ") ∧ withdraw demoSys "ZZ" = demoSys) ∧
    (demoSys.students.findIdx? (fun st => st.sid == "S1") = some 0 ∧
      (demoSys.students.getD 0 default).assigned_branch = none ∧
      withdraw demoSys "S1" = demoSys) :=
  ⟨withdraw_idempotent.1 (initial_allocation demoSys) "S1",
   ⟨by decide, withdraw_idempotent.2.1 demoSys "ZZ" (by decide)⟩,
   ⟨by decide, by decide,
    withdraw_idempotent.2.2 demoSys "S1" 0 (by decide) (by decide)⟩⟩

/-- Every remaining-seat count is non-negative. -/
def SeatsNonneg (sys : AdmissionSystem) : Prop :=
  ∀ b t, 0 ≤ getSeat sys.seats b t

/-- Every assigned student holds a consistent, eligible grant whose key
dominates the current wanters of the held pair, and the held pair is
either satisfied (no wanting candidate while capacity remains) or still
queued for filling. -/
def Granted (sys : AdmissionSystem) (q : List (String × String)) : Prop :=
  ∀ i si b t, sys.students[i]? = some si → si.assigned_branch = some b →
    si.assigned_seat_type = some t →
    si.assigned_pref_index = some (si.pref_index b) ∧ b ∈ si.preferences ∧
    eligible_for si t ∧ DominatesKey sys i si.key b t ∧
    (NBpair sys b t ∨ (b, t) ∈ q)

/-- The stable-state invariant maintained by the public operations:
non-negative counts, per-student field consistency, and every held pair
granted to its dominant candidate with nobody else wanting it. -/
def StableInv (sys : AdmissionSystem) : Prop :=
  SeatsNonneg sys ∧ ConsistentInv sys ∧ Granted sys []

/-- During initial allocation: every already processed student has no
preferred branch left with a seat the student could take (an open seat,
or a reserved seat of the student's own category). -/
def NoLiveWant (sys : AdmissionSystem) (k : Nat) : Prop :=
  ∀ j sj, j < k → sys.students[j]? = some sj →
    ∀ c, (getSeat sys.seats c OPEN > 0 → ¬ sj.prefers c) ∧
      (sj.category ∈ RESERVED_CATS → getSeat sys.seats c sj.category > 0 →
        ¬ sj.prefers c)

/-- During initial allocation: every already processed and assigned
student holds a consistent eligible grant of a seat kind the greedy pass
hands out, and no earlier-processed student wants the held pair. -/
def HoldersOK (sys : AdmissionSystem) (k : Nat) : Prop :=
  ∀ j sj b t, j < k → sys.students[j]? = some sj →
    sj.assigned_branch = some b → sj.assigned_seat_type = some t →
    sj.assigned_pref_index = some (sj.pref_index b) ∧ b ∈ sj.preferences ∧
    eligible_for sj t ∧ (t = OPEN ∨ t ∈ RESERVED_CATS) ∧
    ∀ j' sj', j' < j → sys.students[j']? = some sj' → ¬ wantsSeat sj' b t

/-- The student list is sorted by the priority key (the sort order of
`initial_allocation`, preserved because no operation changes a key). -/
def KeysPW (sys : AdmissionSystem) : Prop :=
  List.Pairwise studentRel sys.students

/-- The invariant of the `initial_allocation` fold after the first `k`
students have been processed. -/
def InitInv (sys : AdmissionSystem) (k : Nat) : Prop :=
  SeatsNonneg sys ∧ UnassignedFrom sys k ∧ KeysPW sys ∧
    NoLiveWant sys k ∧ HoldersOK sys k

/-- One real-time engine step: a withdrawal, or a capacity addition with
the positive delta that `AddCapacity`'s declared input domain (§6 of the
specification) admits. -/
def OpStep (sys sys' : AdmissionSystem) : Prop :=
  (∃ sid, sys' = withdraw sys sid) ∨
  (∃ b t delta, 0 < delta ∧ sys' = add_capacity sys b t delta)

/-- States reachable through the public API: one initial allocation over
a freshly configured system (unassigned students, non-negative seat
counts; the specification makes a second `InitialAllocate` call
unsupported), followed by any number of real-time steps. -/
inductive Reach : AdmissionSystem → Prop where
  | init (sys₀ : AdmissionSystem)
      (h0 : ∀ s ∈ sys₀.students, s.assigned_branch = none ∧
        s.assigned_seat_type = none ∧ s.assigned_pref_index = none)
      (hs : SeatsNonneg sys₀) : Reach (initial_allocation sys₀)
  | step (sys sys' : AdmissionSystem) (h : Reach sys) (hs : OpStep sys sys') :
      Reach sys'

/-- Zero or more real-time steps between two states. -/
inductive Evolves : AdmissionSystem → AdmissionSystem → Prop where
  | refl (sys : AdmissionSystem) : Evolves sys sys
  | step (sys sys' sys'' : AdmissionSystem) (h : Evolves sys sys')
      (hs : OpStep sys' sys'') : Evolves sys sys''

/-- Replacing a list entry by one with the same image leaves the mapped
list unchanged. -/
theorem map_set_same {β : Type} (f : Student → β) (l : List Student) (i : Nat)
    (a s : Student) (hs : l[i]? = some s) (hf : f a = f s) :
    (l.set i a).map f = l.map f := by
  obtain ⟨hi, hgs⟩ := List.getElem?_eq_some.mp hs
  apply List.ext_getElem?
  intro j
  rw [List.getElem?_map, List.getElem?_map, List.getElem?_set]
  by_cases hij : i = j
  · subst hij
    rw [if_pos rfl, if_pos hi, List.getElem?_eq_getElem hi, hgs]
    simp [hf]
  · rw [if_neg hij]

/-- The first occurrence of an element is no later than any occurrence. -/
theorem indexOf_le_of_get {b : String} :
    ∀ (l : List String) (m : Nat) (hm : m < l.length),
      l.get ⟨m, hm⟩ = b → l.indexOf b ≤ m := by
  intro l
  induction l with
  | nil => intro m hm; exact absurd hm (by simp)
  | cons a l ih =>
    intro m hm hget
    cases m with
    | zero =>
      have ha : a = b := hget
      subst ha
      rw [List.indexOf_cons_self]
    | succ m =>
      by_cases hab : a = b
      · subst hab
        rw [List.indexOf_cons_self]
        exact Nat.zero_le _
      · rw [List.indexOf_cons_ne l (fun h => hab h)]
        have hm' : m < l.length := Nat.lt_of_succ_lt_succ hm
        have := ih m hm' hget
        omega

/-- The initial-allocation fold keeps the number of students. -/
theorem initGo_length : ∀ (n i : Nat) (sys : AdmissionSystem),
    (initGo n i sys).students.length = sys.students.length
  | 0, _, _ => rfl
  | n + 1, i, sys => by
    show (initGo n (i + 1) (processAt sys i)).students.length = _
    rw [initGo_length n (i + 1) (processAt sys i), processAt_length]

/-- Cascade preservation of the granted-state invariant: with sufficient
fuel, the loop keeps every count non-negative and leaves every held pair
granted to a dominant candidate with no wanting taker left. -/
theorem upgradeGo_granted_all : ∀ (fuel : Nat) (sys : AdmissionSystem)
    (q : List (String × String)),
    upgradeFuel sys q ≤ fuel → SeatsNonneg sys → Granted sys q →
    SeatsNonneg (upgradeGo fuel sys q) ∧ Granted (upgradeGo fuel sys q) [] := by
  intro fuel
  induction fuel with
  | zero =>
    intro sys q hf hsn hg
    have hq : q = [] := by
      match q with
      | [] => rfl
      | _ :: _ => simp [upgradeFuel] at hf
    subst hq
    exact ⟨hsn, hg⟩
  | succ fuel ih =>
    intro sys q hf hsn hg
    match q with
    | [] => exact ⟨hsn, hg⟩
    | (b, t) :: rest =>
      have hfr : upgradeFuel sys rest ≤ fuel := by
        simp only [upgradeFuel, List.length_cons] at hf ⊢
        omega
      simp only [upgradeGo]
      by_cases hcap : getSeat sys.seats b t > 0
      · rw [if_pos hcap]
        cases hbest : best_candidate_for sys b t with
        | none =>
          refine ih sys rest hfr hsn ?_
          intro i si b₂ t₂ hsi h1 h2
          obtain ⟨h3, h4, h5, hdom, hcq⟩ := hg i si b₂ t₂ hsi h1 h2
          refine ⟨h3, h4, h5, hdom, ?_⟩
          rcases hcq with hnb | hmem
          · exact Or.inl hnb
          · rcases List.mem_cons.mp hmem with heq | hmem'
            · refine Or.inl ?_
              obtain ⟨rfl, rfl⟩ : b₂ = b ∧ t₂ = t := by
                injection heq with e1 e2; exact ⟨e1, e2⟩
              intro hcap2
              exact fun s hsm => best_candidate_for_none_spec _ _ _ hbest s hsm
            · exact Or.inr hmem'
        | some jm =>
          obtain ⟨sjm, hsjm, hwjm, hbefm, haftm⟩ :=
            best_candidate_facts sys b t jm hbest
          have hmlt := totalMeasure_move_lt sys b t jm hbest
          have hplen := prevVacancy_length sys jm
          have hf' : upgradeFuel (moveStudent sys jm b t)
              ((b, t) :: (rest ++ prevVacancy sys jm)) ≤ fuel := by
            simp only [upgradeFuel, List.length_cons, List.length_append] at hf ⊢
            omega
          have hgrant := moveStudent_getElem?_self sys jm b t sjm hsjm
          have hne : ∀ j, jm ≠ j →
              (moveStudent sys jm b t).students[j]? = sys.students[j]? :=
            fun j hj => moveStudent_getElem?_ne sys jm b t j hj
          have hkey : (grantSeat sjm b t).key = sjm.key := rfl
          have hshrink : ∀ x y, wantsSeat (grantSeat sjm b t) x y →
              wantsSeat sjm x y :=
            fun x y => wantsSeat_grantSeat_mono sjm b t x y hwjm.2.2
          have hseats := moveStudent_seats sys jm b t sjm hsjm
          refine ih _ _ hf' ?_ ?_
          · -- counts stay non-negative after the move
            intro x y
            rw [hseats x y]
            have h0 := hsn x y
            by_cases hxy : x = b ∧ y = t
            · obtain ⟨rfl, rfl⟩ := hxy
              simp only [eq_self_iff_true, and_self, if_true]
              cases hpb2 : sjm.assigned_branch <;>
                cases hpt2 : sjm.assigned_seat_type <;> dsimp only
              all_goals omega
            · rw [if_neg hxy]
              cases hpb2 : sjm.assigned_branch <;>
                cases hpt2 : sjm.assigned_seat_type <;> dsimp only
              all_goals omega
          · -- granted state for every assigned student after the move
            intro i si' b₂ t₂ hsi' h1' h2'
            by_cases hji : jm = i
            · subst hji
              rw [hgrant] at hsi'
              injection hsi' with e
              subst e
              have e1 : some b = some b₂ := h1'
              injection e1 with e1
              subst e1
              have e2 : some t = some t₂ := h2'
              injection e2 with e2
              subst e2
              refine ⟨rfl, hwjm.1, ?_, ?_, ?_⟩
              · rcases hwjm.2.1 with h | h
                · exact Or.inl h
                · exact Or.inr h
              · constructor
                · intro j sj hlt hsj hwsj
                  rw [hkey]
                  exact hbefm j sj hlt ((hne j (by omega)) ▸ hsj) hwsj
                · intro j sj hlt hsj hwsj
                  rw [hkey]
                  exact haftm j sj hlt ((hne j (by omega)) ▸ hsj) hwsj
              · exact Or.inr (List.mem_cons_self _ _)
            · have hsi0 : sys.students[i]? = some si' := (hne i hji) ▸ hsi'
              obtain ⟨h3, h4, h5, hdom, hcq⟩ := hg i si' b₂ t₂ hsi0 h1' h2'
              refine ⟨h3, h4, h5, ?_, ?_⟩
              · constructor
                · intro j sj hlt hsj hwsj
                  by_cases hjjm : j = jm
                  · subst hjjm
                    rw [hgrant] at hsj
                    injection hsj with hsj
                    subst hsj
                    rw [hkey]
                    exact hdom.1 j sjm hlt hsjm (hshrink b₂ t₂ hwsj)
                  · exact hdom.1 j sj hlt ((hne j (fun h => hjjm h.symm)) ▸ hsj) hwsj
                · intro j sj hlt hsj hwsj
                  by_cases hjjm : j = jm
                  · subst hjjm
                    rw [hgrant] at hsj
                    injection hsj with hsj
                    subst hsj
                    rw [hkey]
                    exact hdom.2 j sjm hlt hsjm (hshrink b₂ t₂ hwsj)
                  · exact hdom.2 j sj hlt ((hne j (fun h => hjjm h.symm)) ▸ hsj) hwsj
              · rcases hcq with hnb | hmem
                · cases hpb : sjm.assigned_branch with
                  | some pb =>
                    cases hpt : sjm.assigned_seat_type with
                    | some pt =>
                      by_cases hp2 : b₂ = pb ∧ t₂ = pt
                      · obtain ⟨rfl, rfl⟩ := hp2
                        refine Or.inr ?_
                        rw [prevVacancy_eq_some sys jm sjm b₂ t₂ hsjm hpb hpt]
                        exact List.mem_cons_of_mem _
                          (List.mem_append_right rest (List.mem_singleton.mpr rfl))
                      · refine Or.inl ?_
                        intro hcap2 s' hs'
                        have hcs : getSeat sys.seats b₂ t₂ > 0 := by
                          have := hseats b₂ t₂
                          rw [hpb, hpt] at this
                          dsimp only at this
                          have hne2 : ¬ (b₂ = pb ∧ t₂ = pt) := hp2
                          rw [if_neg hne2, add_zero] at this
                          by_cases h2bt : b₂ = b ∧ t₂ = t
                          · obtain ⟨rfl, rfl⟩ := h2bt
                            rw [if_pos ⟨rfl, rfl⟩] at this
                            omega
                          · rw [if_neg h2bt] at this
                            omega
                        have hmem' := List.mem_or_eq_of_mem_set
                          ((moveStudent_students sys jm b t sjm hsjm) ▸ hs')
                        rcases hmem' with hold | rfl
                        · exact hnb hcs s' hold
                        · intro hws
                          exact hnb hcs sjm (List.getElem?_mem hsjm)
                            (hshrink b₂ t₂ hws)
                    | none =>
                      refine Or.inl ?_
                      intro hcap2 s' hs'
                      have hcs : getSeat sys.seats b₂ t₂ > 0 := by
                        have := hseats b₂ t₂
                        rw [hpb, hpt] at this
                        dsimp only at this
                        rw [add_zero] at this
                        by_cases h2bt : b₂ = b ∧ t₂ = t
                        · obtain ⟨rfl, rfl⟩ := h2bt
                          rw [if_pos ⟨rfl, rfl⟩] at this
                          omega
                        · rw [if_neg h2bt] at this
                          omega
                      have hmem' := List.mem_or_eq_of_mem_set
                        ((moveStudent_students sys jm b t sjm hsjm) ▸ hs')
                      rcases hmem' with hold | rfl
                      · exact hnb hcs s' hold
                      · intro hws
                        exact hnb hcs sjm (List.getElem?_mem hsjm)
                          (hshrink b₂ t₂ hws)
                  | none =>
                    refine Or.inl ?_
                    intro hcap2 s' hs'
                    have hcs : getSeat sys.seats b₂ t₂ > 0 := by
                      have := hseats b₂ t₂
                      rw [hpb] at this
                      dsimp only at this
                      rw [add_zero] at this
                      by_cases h2bt : b₂ = b ∧ t₂ = t
                      · obtain ⟨rfl, rfl⟩ := h2bt
                        rw [if_pos ⟨rfl, rfl⟩] at this
                        omega
                      · rw [if_neg h2bt] at this
                        omega
                    have hmem' := List.mem_or_eq_of_mem_set
                      ((moveStudent_students sys jm b t sjm hsjm) ▸ hs')
                    rcases hmem' with hold | rfl
                    · exact hnb hcs s' hold
                    · intro hws
                      exact hnb hcs sjm (List.getElem?_mem hsjm)
                        (hshrink b₂ t₂ hws)
                · refine Or.inr ?_
                  rcases List.mem_cons.mp hmem with heq | hmem'
                  · exact heq ▸ List.mem_cons_self _ _
                  · exact List.mem_cons_of_mem _ (List.mem_append_left _ hmem')
      · rw [if_neg hcap]
        refine ih sys rest hfr hsn ?_
        intro i si b₂ t₂ hsi h1 h2
        obtain ⟨h3, h4, h5, hdom, hcq⟩ := hg i si b₂ t₂ hsi h1 h2
        refine ⟨h3, h4, h5, hdom, ?_⟩
        rcases hcq with hnb | hmem
        · exact Or.inl hnb
        · rcases List.mem_cons.mp hmem with heq | hmem'
          · refine Or.inl ?_
            obtain ⟨rfl, rfl⟩ : b₂ = b ∧ t₂ = t := by
              injection heq with e1 e2; exact ⟨e1, e2⟩
            intro hcap2
            exact absurd hcap2 hcap
          · exact Or.inr hmem'

/-- One step of the initial-allocation fold preserves its invariant:
the processed student either finds no live preferred seat (and joins the
no-live-want set) or is granted the first live one, which no earlier
(better-keyed) student still wanted. -/
theorem InitInv_processAt (sys : AdmissionSystem) (k : Nat) (h : InitInv sys k) :
    InitInv (processAt sys k) (k + 1) := by
  obtain ⟨hsn, hua, hpw, hnlw, hok⟩ := h
  unfold processAt
  cases hsk : sys.students[k]? with
  | none =>
    refine ⟨hsn, ?_, hpw, ?_, ?_⟩
    · intro j hj hle
      exact hua j hj (by omega)
    · intro j sj hj hsj c
      by_cases hjk : j < k
      · exact hnlw j sj hjk hsj c
      · have hje : j = k := by omega
        subst hje
        rw [hsk] at hsj
        cases hsj
    · intro j sj b t hj hsj hb ht
      by_cases hjk : j < k
      · exact hok j sj b t hjk hsj hb ht
      · have hje : j = k := by omega
        subst hje
        rw [hsk] at hsj
        cases hsj
  | some s =>
    have hklen : k < sys.students.length := (List.getElem?_eq_some.mp hsk).1
    have hgetk : sys.students.get ⟨k, hklen⟩ = s := by
      rw [List.get_eq_getElem]
      exact (List.getElem?_eq_some.mp hsk).2
    have hsb : s.assigned_branch = none := by
      have := hua k hklen (le_refl k)
      rw [hgetk] at this
      exact this
    dsimp only
    cases hscan : scanPrefs sys.seats s s.preferences with
    | none =>
      dsimp only
      refine ⟨hsn, ?_, hpw, ?_, ?_⟩
      · intro j hj hle
        exact hua j hj (by omega)
      · intro j sj hj hsj c
        by_cases hjk : j < k
        · exact hnlw j sj hjk hsj c
        · have hje : j = k := by omega
          subst hje
          rw [hsk] at hsj
          injection hsj with e
          subst e
          constructor
          · intro hcap hpref
            have hdead := scanPrefs_none_spec sys.seats s s.preferences hscan c hpref.1
            have h1 := hdead.1
            exact absurd hcap (by omega)
          · intro hres hcap hpref
            have hdead := scanPrefs_none_spec sys.seats s s.preferences hscan c hpref.1
            have h2 := hdead.2 hres
            exact absurd hcap (by omega)
      · intro j sj b t hj hsj hb ht
        by_cases hjk : j < k
        · exact hok j sj b t hjk hsj hb ht
        · have hje : j = k := by omega
          subst hje
          rw [hsk] at hsj
          injection hsj with e
          subst e
          rw [hsb] at hb
          cases hb
    | some bt =>
      obtain ⟨b, t⟩ := bt
      dsimp only
      obtain ⟨hkind0, hcap, m, hm, hbm, hdead⟩ :=
        scanPrefs_some_spec sys.seats s s.preferences b t hscan
      have hbmem : b ∈ s.preferences := hbm ▸ List.get_mem _ _ _
      unfold allocateAt
      rw [hsk]
      dsimp only
      have hib : s.pref_index b ≤ m := by
        unfold Student.pref_index
        rw [if_pos hbmem]
        exact indexOf_le_of_get s.preferences m hm hbm
      have helig : eligible_for s t := by
        rcases hkind0 with he | ⟨-, he⟩
        · exact Or.inl he
        · exact Or.inr he.symm
      have hkind : t = OPEN ∨ t ∈ RESERVED_CATS := by
        rcases hkind0 with he | ⟨hc, he⟩
        · exact Or.inl he
        · exact Or.inr (he ▸ hc)
      have hset_self : (sys.students.set k (grantSeat s b t))[k]? = some (grantSeat s b t) :=
        List.getElem?_set_self hklen
      have hset_ne : ∀ j, k ≠ j →
          (sys.students.set k (grantSeat s b t))[j]? = sys.students[j]? :=
        fun j hj => List.getElem?_set_ne hj
      have hmono : ∀ x y,
          getSeat (setSeat sys.seats b t (getSeat sys.seats b t - 1)) x y ≤
            getSeat sys.seats x y := by
        intro x y
        simp only [getSeat, setSeat]
        by_cases hxy : x = b ∧ y = t
        · obtain ⟨rfl, rfl⟩ := hxy
          simp only [eq_self_iff_true, and_self, if_true]
          omega
        · rw [if_neg hxy]
      refine ⟨?_, ?_, ?_, ?_, ?_⟩
      · intro x y
        show 0 ≤ getSeat (setSeat sys.seats b t (getSeat sys.seats b t - 1)) x y
        simp only [getSeat, setSeat]
        by_cases hxy : x = b ∧ y = t
        · obtain ⟨rfl, rfl⟩ := hxy
          simp only [eq_self_iff_true, and_self, if_true]
          have := hcap
          simp only [getSeat] at this
          omega
        · rw [if_neg hxy]
          exact hsn x y
      · intro j hj hle
        have hj' : j < sys.students.length := by simpa using hj
        have hne2 : k ≠ j := by omega
        have heq : (sys.students.set k (grantSeat s b t)).get ⟨j, hj⟩ =
            sys.students.get ⟨j, hj'⟩ := by
          rw [List.get_eq_getElem, List.get_eq_getElem]
          exact List.getElem_set_ne hne2 _
        rw [heq]
        exact hua j hj' (by omega)
      · have hmap := map_set_same Student.key sys.students k (grantSeat s b t) s hsk rfl
        have h2 : (sys.students.map Student.key).Pairwise keyLe :=
          (List.pairwise_map).mpr hpw
        have h3 := h2
        rw [← hmap] at h3
        unfold KeysPW
        dsimp only
        exact (@List.pairwise_map Student Key Student.key keyLe
          (sys.students.set k (grantSeat s b t))).mp h3
      · intro j sj hj hsj c
        by_cases hjk : j < k
        · have hsj0 : sys.students[j]? = some sj := by
            rw [← hset_ne j (by omega)]
            exact hsj
          have hold := hnlw j sj hjk hsj0 c
          constructor
          · intro hcap' hpref
            dsimp only at hcap'
            refine hold.1 ?_ hpref
            have := hmono c OPEN
            omega
          · intro hres hcap' hpref
            dsimp only at hcap'
            refine hold.2 hres ?_ hpref
            have := hmono c sj.category
            omega
        · have hje : j = k := by omega
          subst hje
          rw [hset_self] at hsj
          injection hsj with e
          subst e
          have hdeadc : ∀ c', (grantSeat s b t).prefers c' → deadFor sys.seats s c' := by
            intro c' hp
            have hcm : c' ∈ s.preferences := hp.1
            have hcin : s.pref_index c' < m := by
              rcases hp.2 with hno | hlt2
              · exact absurd hno (by simp [grantSeat])
              · have hlt3 : s.pref_index c' < s.pref_index b := hlt2
                omega
            have hidx_lt : s.preferences.indexOf c' < s.preferences.length :=
              List.indexOf_lt_length.mpr hcm
            have hgete : s.preferences[s.preferences.indexOf c'] = c' :=
              List.getElem_indexOf hidx_lt
            have hpieq : s.pref_index c' = s.preferences.indexOf c' := by
              unfold Student.pref_index
              rw [if_pos hcm]
            have hd := hdead (s.preferences.indexOf c') hidx_lt (by omega)
            rw [List.get_eq_getElem, hgete] at hd
            exact hd
          constructor
          · intro hcap' hpref
            dsimp only at hcap'
            have hd := hdeadc c hpref
            have h1 := hd.1
            have := hmono c OPEN
            omega
          · intro hres hcap' hpref
            dsimp only [grantSeat] at hres hcap'
            have hd := hdeadc c hpref
            have h2 := hd.2 hres
            have := hmono c s.category
            omega
      · intro j sj b₂ t₂ hj hsj hb₂ ht₂
        by_cases hjk : j < k
        · have hsj0 : sys.students[j]? = some sj := by
            rw [← hset_ne j (by omega)]
            exact hsj
          obtain ⟨g1, g2, g3, g4, g5⟩ := hok j sj b₂ t₂ hjk hsj0 hb₂ ht₂
          refine ⟨g1, g2, g3, g4, ?_⟩
          intro j' sj' hj'j hsj'
          have hsj'0 : sys.students[j']? = some sj' := by
            rw [← hset_ne j' (by omega)]
            exact hsj'
          exact g5 j' sj' hj'j hsj'0
        · have hje : j = k := by omega
          subst hje
          rw [hset_self] at hsj
          injection hsj with e
          subst e
          have e1 : some b = some b₂ := hb₂
          injection e1 with e1
          subst e1
          have e2 : some t = some t₂ := ht₂
          injection e2 with e2
          subst e2
          refine ⟨rfl, hbmem, helig, hkind, ?_⟩
          intro j' sj' hj'k hsj'
          have hsj'0 : sys.students[j']? = some sj' := by
            rw [← hset_ne j' (by omega)]
            exact hsj'
          intro hws
          obtain ⟨hwm, hwe, hwp⟩ := hws
          rcases hkind0 with hto | ⟨hcres, hteq⟩
          · subst hto
            exact (hnlw j' sj' hj'k hsj'0 b).1 hcap hwp
          · rcases hwe with hto' | hcat
            · have hsc : s.category = OPEN := hteq.symm.trans hto'
              rw [hsc] at hcres
              exact absurd hcres (by decide)
            · have h2 := (hnlw j' sj' hj'k hsj'0 b).2
              refine h2 ?_ ?_ hwp
              · rw [hcat, hteq]
                exact hcres
              · rw [hcat]
                exact hcap

/-- The initial-allocation fold carries its invariant across all
remaining students. -/
theorem InitInv_initGo : ∀ (n k : Nat) (sys : AdmissionSystem),
    InitInv sys k → InitInv (initGo n k sys) (k + n)
  | 0, _, _, h => h
  | n + 1, k, sys, h => by
    show InitInv (initGo n (k + 1) (processAt sys k)) (k + (n + 1))
    have h2 := InitInv_initGo n (k + 1) (processAt sys k) (InitInv_processAt sys k h)
    have he : k + 1 + n = k + (n + 1) := by omega
    rw [he] at h2
    exact h2

/-- Once every student is processed, the fold invariant yields the
stable granted state: holders dominate (no earlier-processed wanter,
sortedness for later positions) and every still-open pair has no wanting
taker. -/
theorem Granted_of_InitInv_full (sys : AdmissionSystem) (k : Nat)
    (hk : sys.students.length ≤ k) (h : InitInv sys k) : Granted sys [] := by
  obtain ⟨hsn, hua, hpw, hnlw, hok⟩ := h
  intro i si b t hsi h1 h2
  have hi' : i < sys.students.length := (List.getElem?_eq_some.mp hsi).1
  obtain ⟨g1, g2, g3, g4, g5⟩ := hok i si b t (by omega) hsi h1 h2
  refine ⟨g1, g2, g3, ?_, Or.inl ?_⟩
  · constructor
    · intro j sj hlt hsj hws
      exact absurd hws (g5 j sj hlt hsj)
    · intro j sj hlt hsj hws
      obtain ⟨hi2, hgi⟩ := List.getElem?_eq_some.mp hsi
      obtain ⟨hj2, hgj⟩ := List.getElem?_eq_some.mp hsj
      have hrel := (List.pairwise_iff_getElem.mp hpw) i j hi2 hj2 hlt
      rw [hgi, hgj] at hrel
      exact not_lt.mpr hrel
  · intro hcap' s' hm' hws'
    obtain ⟨j', hj'len, hj'get⟩ := List.mem_iff_getElem.mp hm'
    have hsj' : sys.students[j']? = some s' := by
      rw [List.getElem?_eq_getElem hj'len, hj'get]
    obtain ⟨hwm, hwe, hwp⟩ := hws'
    have hnl := hnlw j' s' (by omega) hsj' b
    rcases g4 with hto | htres
    · subst hto
      exact hnl.1 hcap' hwp
    · rcases hwe with hto' | hcat
      · rw [hto'] at htres
        exact absurd htres (by decide)
      · refine hnl.2 ?_ ?_ hwp
        · rw [hcat]
          exact htres
        · rw [hcat]
          exact hcap'

/-- Initial allocation on a freshly configured system establishes the
stable-state invariant. -/
theorem StableInv_initial (sys₀ : AdmissionSystem)
    (h0 : ∀ s ∈ sys₀.students, s.assigned_branch = none ∧
      s.assigned_seat_type = none ∧ s.assigned_pref_index = none)
    (hs : SeatsNonneg sys₀) : StableInv (initial_allocation sys₀) := by
  have hmem : ∀ s ∈ sys₀.students.insertionSort studentRel,
      s.assigned_branch = none ∧ s.assigned_seat_type = none ∧
        s.assigned_pref_index = none := by
    intro s hm
    exact h0 s ((List.perm_insertionSort studentRel sys₀.students).mem_iff.mp hm)
  have hbase : InitInv
      { sys₀ with students := sys₀.students.insertionSort studentRel } 0 := by
    refine ⟨?_, ?_, ?_, ?_, ?_⟩
    · intro b t
      exact hs b t
    · intro j hj hle
      exact (hmem _ (List.get_mem _ _ _)).1
    · exact List.sorted_insertionSort studentRel sys₀.students
    · intro j sj hjk
      exact absurd hjk (Nat.not_lt_zero j)
    · intro j sj b t hjk
      exact absurd hjk (Nat.not_lt_zero j)
  have hfin := InitInv_initGo (sys₀.students.insertionSort studentRel).length 0 _ hbase
  have hfin' : InitInv (initial_allocation sys₀)
      (0 + (sys₀.students.insertionSort studentRel).length) := hfin
  have hlen : (initial_allocation sys₀).students.length =
      (sys₀.students.insertionSort studentRel).length := by
    show (initGo _ 0 _).students.length = _
    rw [initGo_length]
  refine ⟨hfin'.1, ?_, Granted_of_InitInv_full _ _ (by omega) hfin'⟩
  show ConsistentInv (initGo _ 0 _)
  apply ConsistentInv_initGo
  intro s hm
  obtain ⟨e1, e2, e3⟩ := hmem s hm
  unfold studentConsistent
  rw [e1, e2, e3]
  exact trivial

/-- On a stable state, a withdrawal is a no-op: the cleared candidate
still dominates the freed pair (nobody else wanted it) and is re-granted
the identical seat by the cascade. -/
theorem withdraw_eq_of_StableInv (sys : AdmissionSystem) (sid : String)
    (h : StableInv sys) : withdraw sys sid = sys := by
  rcases withdraw_cases sys sid with heq | ⟨i, b, t, hf, hb, ht, heq⟩
  · exact heq
  · obtain ⟨hi, -, -⟩ := findIdx?_some_spec (fun st => st.sid == sid) sys.students i hf
    have hsi : sys.students[i]? = some (sys.students.getD i default) := by
      rw [List.getD_eq_getElem?_getD, List.getElem?_eq_getElem hi]
      rfl
    obtain ⟨g1, g2, g3, gdom, gnq⟩ := h.2.2 i _ b t hsi hb ht
    have hnb : NBpair sys b t := by
      rcases gnq with h' | h'
      · exact h'
      · exact absurd h' (List.not_mem_nil _)
    rw [heq]
    unfold upgrade_and_fill
    refine retake_lemma sys i _ b t hsi hb ht g1 g2 g3 gdom hnb (h.1 b t) _ ?_
    have hS₁i : (sys.students.set i
        (clearAssignment (sys.students.getD i default)))[i]? =
        some (clearAssignment (sys.students.getD i default)) :=
      List.getElem?_set_self hi
    have hm := measureOf_le_totalMeasure
      { seats := setSeat sys.seats b t (getSeat sys.seats b t + 1),
        students := sys.students.set i
          (clearAssignment (sys.students.getD i default)) } i _ hS₁i
    have hme : measureOf (clearAssignment (sys.students.getD i default)) =
        (sys.students.getD i default).preferences.length + 1 := rfl
    unfold upgradeFuel
    simp only [List.length_cons, List.length_nil]
    omega

/-- A withdrawal keeps the stable-state invariant. -/
theorem StableInv_withdraw (sys : AdmissionSystem) (sid : String)
    (h : StableInv sys) : StableInv (withdraw sys sid) := by
  rw [withdraw_eq_of_StableInv sys sid h]
  exact h

/-- A capacity addition with positive delta keeps the stable-state
invariant: the target pair is re-queued and the cascade restores the
granted state. -/
theorem StableInv_add_capacity (sys : AdmissionSystem) (b t : String) (delta : Int)
    (hd : 0 < delta) (h : StableInv sys) : StableInv (add_capacity sys b t delta) := by
  obtain ⟨hsn, hci, hg⟩ := h
  have hsn' : SeatsNonneg
      { sys with seats := setSeat sys.seats b t (getSeat sys.seats b t + delta) } := by
    intro x y
    dsimp only
    simp only [getSeat, setSeat]
    by_cases hxy : x = b ∧ y = t
    · obtain ⟨rfl, rfl⟩ := hxy
      simp only [eq_self_iff_true, and_self, if_true]
      have := hsn x y
      simp only [getSeat] at this
      omega
    · rw [if_neg hxy]
      exact hsn x y
  have hg' : Granted
      { sys with seats := setSeat sys.seats b t (getSeat sys.seats b t + delta) }
      [(b, t)] := by
    intro i si b₂ t₂ hsi h1 h2
    obtain ⟨g1, g2, g3, gdom, gnq⟩ := hg i si b₂ t₂ hsi h1 h2
    refine ⟨g1, g2, g3, gdom, ?_⟩
    rcases gnq with hnb | habs
    · by_cases hbt : b₂ = b ∧ t₂ = t
      · obtain ⟨rfl, rfl⟩ := hbt
        exact Or.inr (List.mem_singleton.mpr rfl)
      · refine Or.inl ?_
        intro hcap' s' hm' hw'
        refine hnb ?_ s' hm' hw'
        dsimp only at hcap'
        simp only [getSeat, setSeat] at hcap'
        rw [if_neg hbt] at hcap'
        exact hcap'
    · exact absurd habs (List.not_mem_nil _)
  unfold add_capacity upgrade_and_fill
  dsimp only
  obtain ⟨fsn, fg⟩ := upgradeGo_granted_all _ _ _ (le_refl _) hsn' hg'
  refine ⟨fsn, ?_, fg⟩
  exact ConsistentInv_upgradeGo _ _ _ hci

/-- Every reachable state satisfies the stable-state invariant. -/
theorem StableInv_reach (sys : AdmissionSystem) (h : Reach sys) : StableInv sys := by
  induction h with
  | init sys₀ h0 hs => exact StableInv_initial sys₀ h0 hs
  | step s s' h hs ih =>
    rcases hs with ⟨sid, rfl⟩ | ⟨b, t, delta, hd, rfl⟩
    · exact StableInv_withdraw s sid ih
    · exact StableInv_add_capacity s b t delta hd ih

/-- The cascade loop keeps the number of students. -/
theorem upgradeGo_length (fuel : Nat) (sys : AdmissionSystem)
    (q : List (String × String)) :
    (upgradeGo fuel sys q).students.length = sys.students.length := by
  have h1 := congrArg List.length (upgradeGo_sid_map fuel sys q)
  simpa using h1

/-- The cascade never worsens any student's recorded preference index:
every move either leaves a record untouched or re-grants a strictly
preferred branch. -/
theorem upgradeGo_index_mono : ∀ (fuel : Nat) (sys : AdmissionSystem)
    (q : List (String × String)), ConsistentInv sys →
    ∀ (i : Nat) (si : Student) (k : Nat),
      sys.students[i]? = some si → si.assigned_pref_index = some k →
      ∃ si', (upgradeGo fuel sys q).students[i]? = some si' ∧
        ∃ k', si'.assigned_pref_index = some k' ∧ k' ≤ k := by
  intro fuel
  induction fuel with
  | zero =>
    intro sys q hc i si k hsi hk
    exact ⟨si, hsi, k, hk, le_refl k⟩
  | succ fuel ih =>
    intro sys q hc i si k hsi hk
    match q with
    | [] => exact ⟨si, hsi, k, hk, le_refl k⟩
    | (b, t) :: rest =>
      simp only [upgradeGo]
      by_cases hcap : getSeat sys.seats b t > 0
      · rw [if_pos hcap]
        cases hbest : best_candidate_for sys b t with
        | none => exact ih sys rest hc i si k hsi hk
        | some jm =>
          obtain ⟨sjm, hsjm, hwjm, -, -⟩ := best_candidate_facts sys b t jm hbest
          have hc' : ConsistentInv (moveStudent sys jm b t) :=
            ConsistentInv_moveStudent sys b t jm hbest hc
          by_cases hji : jm = i
          · subst hji
            rw [hsjm] at hsi
            injection hsi with e
            subst e
            have hlt : sjm.pref_index b < k := by
              rcases hwjm.2.2.2 with hnone | hlt2
              · have hcons := hc sjm (List.getElem?_mem hsjm)
                unfold studentConsistent at hcons
                rw [hnone, hk] at hcons
                cases hst : sjm.assigned_seat_type <;> rw [hst] at hcons <;>
                  exact False.elim hcons
              · rw [hk] at hlt2
                exact hlt2
            have hmoved : (moveStudent sys jm b t).students[jm]? =
                some (grantSeat sjm b t) :=
              moveStudent_getElem?_self sys jm b t sjm hsjm
            obtain ⟨si', hsi', k', hk', hle⟩ := ih (moveStudent sys jm b t) _ hc'
              jm (grantSeat sjm b t) (sjm.pref_index b) hmoved rfl
            exact ⟨si', hsi', k', hk', by omega⟩
          · have hkeep : (moveStudent sys jm b t).students[i]? = some si := by
              rw [moveStudent_getElem?_ne sys jm b t i hji]
              exact hsi
            exact ih _ _ hc' i si k hkeep hk
      · rw [if_neg hcap]
        exact ih sys rest hc i si k hsi hk

/-- Over one real-time step from a stable state, an assigned student
stays assigned with an equal-or-smaller preference index. -/
theorem step_index_mono (sys sys' : AdmissionSystem) (hInv : StableInv sys)
    (hs : OpStep sys sys') (i : Nat) (si : Student) (k : Nat)
    (hsi : sys.students[i]? = some si) (hk : si.assigned_pref_index = some k) :
    ∃ si', sys'.students[i]? = some si' ∧
      ∃ k', si'.assigned_pref_index = some k' ∧ k' ≤ k := by
  rcases hs with ⟨sid, rfl⟩ | ⟨b, t, delta, hd, rfl⟩
  · rw [withdraw_eq_of_StableInv sys sid hInv]
    exact ⟨si, hsi, k, hk, le_refl k⟩
  · unfold add_capacity upgrade_and_fill
    dsimp only
    exact upgradeGo_index_mono _
      { seats := setSeat sys.seats b t (getSeat sys.seats b t + delta),
        students := sys.students } _ hInv.2.1 i si k hsi hk

/-- Reachability is closed under step sequences. -/
theorem Reach_of_evolves (sys sys' : AdmissionSystem) (h : Reach sys)
    (hev : Evolves sys sys') : Reach sys' := by
  induction hev with
  | refl => exact h
  | step s' s'' hev2 hstep ih => exact Reach.step s' s'' ih hstep

/-- C7: monotonic improvement.  Across every sequence of public
operations — one initial allocation of a freshly configured system
followed by any withdrawals and capacity additions (with the positive
delta that the operation's declared input domain admits) — a candidate
assigned with preference index `k` still holds an assignment at every
later state, with a preference index that never exceeds `k`. -/
theorem pref_index_never_increases (sys sys' : AdmissionSystem)
    (h : Reach sys) (hev : Evolves sys sys') (i : Nat) (si si' : Student) (k : Nat)
    (hsi : sys.students[i]? = some si) (hsi' : sys'.students[i]? = some si')
    (hk : si.assigned_pref_index = some k) :
    ∃ k', si'.assigned_pref_index = some k' ∧ k' ≤ k := by
  induction hev generalizing si' with
  | refl =>
    rw [hsi] at hsi'
    injection hsi' with e
    subst e
    exact ⟨k, hk, le_refl k⟩
  | step s' s'' hev2 hstep ih =>
    have hreach' : Reach s' := Reach_of_evolves sys s' h hev2
    have hInv' := StableInv_reach s' hreach'
    have hi'' : i < s''.students.length := (List.getElem?_eq_some.mp hsi').1
    have hle : s''.students.length = s'.students.length := by
      rcases hstep with ⟨sid, rfl⟩ | ⟨b, t, delta, hd, rfl⟩
      · rw [withdraw_eq_of_StableInv s' sid hInv']
      · unfold add_capacity upgrade_and_fill
        dsimp only
        rw [upgradeGo_length]
    have hlen' : i < s'.students.length := by omega
    have hmid : s'.students[i]? = some (s'.students.get ⟨i, hlen'⟩) := by
      rw [List.getElem?_eq_getElem hlen']
      rfl
    obtain ⟨k₁, hk₁, hle₁⟩ := ih _ hmid
    obtain ⟨si'', hsi'', k₂, hk₂, hle₂⟩ := step_index_mono s' s'' hInv' hstep i
      (s'.students.get ⟨i, hlen'⟩) k₁ hmid hk₁
    rw [hsi''] at hsi'
    injection hsi' with e
    subst e
    exact ⟨k₂, hk₂, le_trans hle₂ hle₁⟩

/-- The reference seat table has no negative count. -/
theorem demoSeats_nonneg : SeatsNonneg demoSys := by
  intro b t
  show (0 : Int) ≤ demoSeats b t
  unfold demoSeats
  split_ifs <;> omega

/-- C7 witness: the reference configuration reaches its initial
allocation; after a withdrawal step, the candidate at position 0 (rank 1,
assigned at preference index 0) still holds an index-0 assignment. -/
theorem pref_index_never_increases_witness :
    Reach (initial_allocation demoSys) ∧
    ∃ k', ((withdraw (initial_allocation demoSys) "S1").students[0]?.getD
      default).assigned_pref_index = some k' ∧ k' ≤ 0 := by
  have hreach : Reach (initial_allocation demoSys) :=
    Reach.init demoSys (by decide) demoSeats_nonneg
  have hstep : Evolves (initial_allocation demoSys)
      (withdraw (initial_allocation demoSys) "S1") :=
    Evolves.step _ _ _ (Evolves.refl _) (Or.inl ⟨"S1", rfl⟩)
  have hsomeB : (withdraw (initial_allocation demoSys) "S1").students[0]?.isSome
      = true := by decide
  obtain ⟨a, ha⟩ := Option.isSome_iff_exists.mp hsomeB
  have hget : (withdraw (initial_allocation demoSys) "S1").students[0]?.getD
      default = a := by
    rw [ha]
    rfl
  have hsomeA : (initial_allocation demoSys).students[0]?.isSome = true := by decide
  obtain ⟨a0, ha0⟩ := Option.isSome_iff_exists.mp hsomeA
  have hkA : a0.assigned_pref_index = some 0 := by
    have : ((initial_allocation demoSys).students[0]?.getD
        default).assigned_pref_index = some 0 := by decide
    rw [ha0] at this
    exact this
  obtain ⟨k', hk', hle⟩ := pref_index_never_increases (initial_allocation demoSys)
    (withdraw (initial_allocation demoSys) "S1") hreach hstep 0 a0 a 0 ha0 ha hkA
  refine ⟨hreach, k', ?_, hle⟩
  rw [hget]
  exact hk'
